import Mathlib

/-!
# Verification of the Virtual-Network-Embedding engine

A shallow embedding of the MP_VNE embedding engine
(`src/algorithms/MP_VNE/{local_controller,global_controller,mp_vne}.py`)
and of the baseline `src/algorithms/MC_VNM/mc_vnm.py`, together with
theorems settling the frozen claims about them.

Modelling conventions, following the repository's own design notes:
* Substrate nodes and links are addressed by stable integer identifiers;
  the mutable residuals (`available_cpu`, `available_bw`) live in an explicit
  ledger state `St` mapping identifiers to rational amounts.  The Python code
  mutates `available_cpu` / `available_bw` fields on shared objects; keying the
  ledger by identifier is the arena representation the design notes prescribe
  and is faithful whenever identifiers are unique, which the generators ensure.
* Python floats are modelled as rationals (`ℚ`); `float('inf')` becomes `⊤` in
  `WithTop ℚ`.
* Virtual nodes carry the fields the algorithms read (`id`, `cpu_demand`,
  `domains`), i.e. the data model of the JSON dataset format that
  `load_dataset_from_json` constructs them from.
* Intra-domain links (`SubstrateLink`) and inter-domain links (`InterLink`)
  are treated uniformly (the algorithms only ever read the fields they share),
  as a single record `Link`; each carries its own identifier.
* Raised Python exceptions become an `Err` value: `Except Err` for functions
  that only raise, and an `Option Err` component for loops that additionally
  thread state.
* The source's `while pq:` Dijkstra loops terminate on every input they are
  run on; they are embedded with an explicit fuel parameter that dominates the
  iteration count on all inputs appearing in this development, and the
  theorems proved about routing either evaluate it on concrete inputs (where
  the fuel is visibly sufficient) or do not depend on the route returned.
-/

/-- Substrate node: static attributes (`SubstrateNode` in `types/substrate.py`).
The mutable `available_cpu` lives in the ledger `St`, keyed by `node_id`. -/
structure SubstrateNode where
  node_id : ℕ
  cpu_capacity : ℚ
  cost_per_unit : ℚ
  delay : ℚ
deriving DecidableEq

/-- A substrate link, intra-domain (`SubstrateLink`) or inter-domain
(`InterLink`): static attributes; the mutable `available_bw` lives in the
ledger `St`, keyed by `link_id`.  Endpoints are stored as node identifiers. -/
structure Link where
  link_id : ℕ
  src : ℕ
  dst : ℕ
  bandwidth : ℚ
  cost_per_unit : ℚ
  delay : ℚ
deriving DecidableEq

/-- `SubstrateDomain`: identifier, nodes, intra-domain links, and the
boundary-node identifiers the MP_VNE controllers read from it. -/
structure SubstrateDomain where
  domain_id : ℕ
  nodes : List SubstrateNode
  links : List Link
  boundary_nodes : List ℕ
deriving DecidableEq

/-- `SubstrateNetwork`: domains plus the inter-domain links. -/
structure SubstrateNetwork where
  domains : List SubstrateDomain
  links : List Link
deriving DecidableEq

/-- Virtual node, with the fields the algorithms read: identifier, CPU demand
and the permitted-domain list (empty means every domain is permitted). -/
structure VirtualNode where
  id : ℕ
  cpu_demand : ℚ
  domains : List ℕ
deriving DecidableEq

/-- Virtual link between two virtual nodes of the same request. -/
structure VirtualLink where
  src : VirtualNode
  dst : VirtualNode
  bandwidth : ℚ
deriving DecidableEq

/-- Virtual network: ordered virtual nodes and the virtual links. -/
structure VirtualNetwork where
  nodes : List VirtualNode
  links : List VirtualLink
deriving DecidableEq

/-- `VirtualRequest` (`types/request.py`): payload network, arrival, lifetime. -/
structure VirtualRequest where
  vnetwork : VirtualNetwork
  arrival_time : ℚ
  lifetime : ℚ
deriving DecidableEq

/-- The residual ledger: `available_cpu` by node id, `available_bw` by link id.
This is the state the Python code keeps in the mutable `available_cpu` /
`available_bw` fields of its node and link objects. -/
structure St where
  cpu : ℕ → ℚ
  bw : ℕ → ℚ

/-- Write one node's available CPU. -/
def St.setCpu (st : St) (n : ℕ) (q : ℚ) : St :=
  ⟨fun m => if m = n then q else st.cpu m, st.bw⟩

/-- Write one link's available bandwidth. -/
def St.setBw (st : St) (l : ℕ) (q : ℚ) : St :=
  ⟨st.cpu, fun m => if m = l then q else st.bw m⟩

@[simp] theorem St.setCpu_cpu (st : St) (n : ℕ) (q : ℚ) (m : ℕ) :
    (st.setCpu n q).cpu m = if m = n then q else st.cpu m := rfl

@[simp] theorem St.setCpu_bw (st : St) (n : ℕ) (q : ℚ) (l : ℕ) :
    (st.setCpu n q).bw l = st.bw l := rfl

@[simp] theorem St.setBw_bw (st : St) (l : ℕ) (q : ℚ) (m : ℕ) :
    (st.setBw l q).bw m = if m = l then q else st.bw m := rfl

@[simp] theorem St.setBw_cpu (st : St) (l : ℕ) (q : ℚ) (n : ℕ) :
    (st.setBw l q).cpu n = st.cpu n := rfl

/-- Python exceptions surfaced by the engine; constructors record the data the
source interpolates into the exception message. -/
inductive Err where
  /-- `ValueError: Insufficient CPU on node … for vnode …` -/
  | insufficientCpu (snode vnode : ℕ)
  /-- `ValueError: No path found for virtual link …` -/
  | noPathFound (src vnode_dst : ℕ)
  /-- `ValueError: Insufficient BW on link …` -/
  | insufficientBw (src dst : ℕ)
  /-- `Exception: Cannot find optimal path` -/
  | cannotFindOptimalPath
  /-- `ValueError: Node … not found in any domain` -/
  | nodeNotFound (node : ℕ)
  /-- `ValueError: No LocalController for domain …` -/
  | noLocalController (domain : ℕ)
  /-- `TypeError` — the source constructs `InterLink(src=…, dst=…, …)` without
  the required `src_domain` / `dst_domain` constructor arguments. -/
  | typeError
  /-- `KeyError` — a dictionary lookup on a missing key. -/
  | keyError
deriving DecidableEq

/-- `LocalController.get_candidates`: the substrate nodes of the controller's
domain whose available CPU covers the virtual node's demand.  (The source
applies no permitted-domain filter.) -/
def LocalController.get_candidates (domain : SubstrateDomain) (st : St)
    (vnode : VirtualNode) : List SubstrateNode :=
  domain.nodes.filter (fun node => vnode.cpu_demand ≤ st.cpu node.node_id)

/-- `GlobalController.process_request`: per virtual node, concatenate the
candidates contributed by every local controller, in domain order. -/
def GlobalController.process_request (net : SubstrateNetwork) (st : St)
    (request : VirtualNetwork) : List (List SubstrateNode) :=
  request.nodes.map (fun vnode =>
    (net.domains.map (fun d => LocalController.get_candidates d st vnode)).flatten)

/-! ## Dijkstra routing (`LocalController.shortest_path`,
`GlobalController._interdomain_shortest_path`, `GlobalController.shortest_path`) -/

/-- Pop the minimum-priority entry of the pending queue (`heapq.heappop`):
the entry with the least cost, the earliest-pushed among equal costs.
(On equal costs the source would compare `SubstrateNode` objects, which do not
support ordering; no claim settled here depends on equal-cost pops.) -/
def popMin : List (ℚ × ℕ) → Option ((ℚ × ℕ) × List (ℚ × ℕ))
  | [] => none
  | x :: xs =>
    match popMin xs with
    | none => some (x, [])
    | some (y, rest) => if x.1 ≤ y.1 then some (x, xs) else some (y, x :: rest)

/-- `a < b`, where the distance `b = none` encodes `float('inf')`. -/
def qlt (a : ℚ) : Option ℚ → Bool
  | none => true
  | some b => decide (a < b)

/-- One relaxation sweep: for the popped node `u` with tentative distances
`dist` and predecessor links `prev` (`none` = `inf` / no predecessor), fold
over the adjacency list of `u`, updating `(pq, dist, prev)` exactly as the
source's inner `for` loop does; `weight` is the edge weight
(`delay + cost_per_unit` intra-domain, `delay + cost_per_unit · bw_required`
inter-domain). -/
def relaxAll (du : ℚ) (adjU : List (ℕ × Link)) (weight : Link → ℚ)
    (s : List (ℚ × ℕ) × (ℕ → Option ℚ) × (ℕ → Option Link)) :
    List (ℚ × ℕ) × (ℕ → Option ℚ) × (ℕ → Option Link) :=
  adjU.foldl
    (fun s p =>
      let (pq, dist, prev) := s
      let v := p.1
      let link := p.2
      let alt : ℚ := du + weight link
      if qlt alt (dist v) then
        (pq ++ [(alt, v)],
         fun n => if n = v then some alt else dist n,
         fun n => if n = v then some link else prev n)
      else s)
    s

/-- The `while pq:` loop of the source's Dijkstra, with fuel bounding the
number of pops.  `adj` is the adjacency function (which edge-set it ranges
over, and whether the bandwidth floor filters it, is fixed by the caller).
Stops when the queue empties or the destination is popped, mirroring the
`break`. -/
def dijkstraLoop (adj : ℕ → List (ℕ × Link)) (weight : Link → ℚ) (dst : ℕ) :
    ℕ → List (ℚ × ℕ) → (ℕ → Option ℚ) → (ℕ → Option Link) →
    (ℕ → Option ℚ) × (ℕ → Option Link)
  | 0, _, dist, prev => (dist, prev)
  | fuel + 1, pq, dist, prev =>
    match popMin pq with
    | none => (dist, prev)
    | some ((_, u), pq') =>
      if u = dst then (dist, prev)
      else
        match dist u with
        | none =>
          -- `dist[u]` is `inf`: `alt` is `inf` and never improves any `dist[v]`
          dijkstraLoop adj weight dst fuel pq' dist prev
        | some du =>
          let s := relaxAll du (adj u) weight (pq', dist, prev)
          dijkstraLoop adj weight dst fuel s.1 s.2.1 s.2.2

/-- Path reconstruction: walk `prev` back from `dst` to `src`, collecting the
links traversed, then reverse; a missing predecessor means "no path" and
returns `[]` (so an empty result also encodes `src = dst`). -/
def buildPath (prev : ℕ → Option Link) (src : ℕ) :
    ℕ → ℕ → List Link → List Link
  | 0, _, _ => []
  | fuel + 1, node, path =>
    if node = src then path.reverse
    else
      match prev node with
      | none => []
      | some link =>
        buildPath prev src fuel (if link.dst = node then link.src else link.dst)
          (link :: path)

/-- Adjacency inside one domain: every intra-domain link incident to `u` whose
available bandwidth covers the floor (the source skips the others inside the
loop, which relaxes nothing for them). -/
def LocalController.adj (domain : SubstrateDomain) (st : St) (bw_required : ℚ)
    (u : ℕ) : List (ℕ × Link) :=
  domain.links.filterMap (fun link =>
    if link.src = u then
      if st.bw link.link_id < bw_required then none else some (link.dst, link)
    else if link.dst = u then
      if st.bw link.link_id < bw_required then none else some (link.src, link)
    else none)

/-- Fuel that dominates the pop count of the source's terminating runs on the
inputs of this development. -/
def dijkstraFuel (numNodes numLinks : ℕ) : ℕ :=
  (numNodes + 1) * (numLinks + 1) + 1

/-- `LocalController.shortest_path`: Dijkstra over one domain's links under
the bandwidth floor; weight `delay + cost_per_unit`; returns `[]` both when
`src = dst` and when no path exists. -/
def LocalController.shortest_path (domain : SubstrateDomain) (st : St)
    (src dst : ℕ) (bw_required : ℚ) : List Link :=
  let fuel := dijkstraFuel domain.nodes.length domain.links.length
  let dist0 : ℕ → Option ℚ := fun n => if n = src then some 0 else none
  let r := dijkstraLoop (LocalController.adj domain st bw_required)
    (fun link => link.delay + link.cost_per_unit)
    dst fuel [((0 : ℚ), src)] dist0 (fun _ => none)
  buildPath r.2 src fuel dst []

/-- `LocalController.link_cost`: cost of the local shortest path,
`Σ (delay + cost_per_unit · bw)` over its hops. -/
def LocalController.link_cost (domain : SubstrateDomain) (st : St)
    (src dst : ℕ) (bw_required : ℚ) : ℚ :=
  (LocalController.shortest_path domain st src dst bw_required).foldl
    (fun acc link => acc + link.delay + link.cost_per_unit * bw_required) 0

/-- The ordered pairs `(b_nodes[i], b_nodes[j])`, `i < j`, the source's nested
`for i / for j in range(i+1, …)` ranges over. -/
def listPairs : List ℕ → List (ℕ × ℕ)
  | [] => []
  | x :: xs => xs.map (fun y => (x, y)) ++ listPairs xs

/-- Whether some boundary pair of `d` is joined by a nonempty intra-domain
path under the floor.  At the first such pair the source evaluates
`InterLink(src=…, dst=…, bandwidth=…, cost_per_unit=…, delay=…)`, a call that
omits the constructor's required `src_domain`/`dst_domain` arguments and
therefore raises `TypeError`: the synthetic boundary-to-boundary edge is never
actually built. -/
def boundaryPairsHavePath (d : SubstrateDomain) (st : St) (bw_required : ℚ) :
    Bool :=
  (listPairs d.boundary_nodes).any (fun p =>
    !(LocalController.shortest_path d st p.1 p.2 bw_required).isEmpty)

/-- Reconstruction in `_interdomain_shortest_path`: the `prev_link` dictionary
only has keys for the composite graph's nodes, so walking onto any other node
raises `KeyError`; a recorded `None` predecessor returns `[]` ("no path"). -/
def interBuildPath (nodesSet : List ℕ) (prev : ℕ → Option Link) (src : ℕ) :
    ℕ → ℕ → List Link → Except Err (List Link)
  | 0, _, _ => .ok []
  | fuel + 1, node, path =>
    if node = src then .ok path.reverse
    else if node ∈ nodesSet then
      match prev node with
      | none => .ok []
      | some link =>
        interBuildPath nodesSet prev src fuel
          (if link.dst = node then link.src else link.dst) (link :: path)
    else .error .keyError

/-- `GlobalController._interdomain_shortest_path`: Dijkstra between boundary
nodes over the inter-domain links with `available_bw ≥ bw_required`, weight
`delay + cost_per_unit · bw_required`.  The composite graph would also get one
synthetic edge per connected same-domain boundary pair, but constructing that
edge raises `TypeError` (see `boundaryPairsHavePath`), which propagates. -/
def GlobalController.interdomain_shortest_path (net : SubstrateNetwork)
    (st : St) (src_boundary dst_boundary : ℕ) (bw_required : ℚ) :
    Except Err (List Link) :=
  let ok_links := net.links.filter (fun l => bw_required ≤ st.bw l.link_id)
  if net.domains.any (fun d => boundaryPairsHavePath d st bw_required) then
    .error .typeError
  else
    let nodesSet : List ℕ := ok_links.map (fun l => l.src) ++ ok_links.map (fun l => l.dst)
    let adj : ℕ → List (ℕ × Link) := fun u =>
      ok_links.filterMap (fun l =>
        if l.src = u then some (l.dst, l)
        else if l.dst = u then some (l.src, l)
        else none)
    let fuel := dijkstraFuel nodesSet.length ok_links.length
    let dist0 : ℕ → Option ℚ := fun n => if n = src_boundary then some 0 else none
    let r := dijkstraLoop adj (fun link => link.delay + link.cost_per_unit * bw_required)
      dst_boundary fuel [((0 : ℚ), src_boundary)] dist0 (fun _ => none)
    interBuildPath nodesSet r.2 src_boundary fuel dst_boundary []

/-- `GlobalController._get_domain_id`: the id of the (first) domain whose node
list contains the node; `ValueError` when none does. -/
def GlobalController.get_domain_id (net : SubstrateNetwork) (node : ℕ) :
    Except Err ℕ :=
  match net.domains.find? (fun d => d.nodes.any (fun n => n.node_id == node)) with
  | some d => .ok d.domain_id
  | none => .error (.nodeNotFound node)

/-- `GlobalController._get_local_controller`: the (first) domain with the
given id; `ValueError` when none exists. -/
def GlobalController.get_local_controller (net : SubstrateNetwork)
    (domain_id : ℕ) : Except Err SubstrateDomain :=
  match net.domains.find? (fun d => d.domain_id == domain_id) with
  | some d => .ok d
  | none => .error (.noLocalController domain_id)

/-- `sum(l.delay + l.cost_per_unit * bw_required for l in total_path)`. -/
def pathWeightSum (path : List Link) (bw_required : ℚ) : ℚ :=
  path.foldl (fun acc l => acc + (l.delay + l.cost_per_unit * bw_required)) 0

/-- The body of the cross-domain boundary-pair enumeration in
`GlobalController.shortest_path`: for every pair `(b_src, b_dst)` compose
`intra(src → b_src) ++ inter(b_src → b_dst) ++ intra(b_dst → dst)` and keep
the composite with the least `Σ delay + cost_per_unit · bw` — note that an
empty `path_src`/`path_dst`, which also encodes "no intra path", is composed
without any check.  Errors of the inter-domain router propagate.  (The source
recomputes `path_src` per inner iteration, observationally identically.) -/
def bestPairLoop (net : SubstrateNetwork) (st : St)
    (lc_src lc_dst : SubstrateDomain) (src dst : ℕ) (bw_required : ℚ) :
    List (ℕ × ℕ) → Option ℚ × List Link → Except Err (Option ℚ × List Link)
  | [], best => .ok best
  | bp :: rest, best =>
    let path_src := LocalController.shortest_path lc_src st src bp.1 bw_required
    let path_dst := LocalController.shortest_path lc_dst st bp.2 dst bw_required
    match GlobalController.interdomain_shortest_path net st bp.1 bp.2 bw_required with
    | .error e => .error e
    | .ok inter_path =>
      if inter_path = [] then
        bestPairLoop net st lc_src lc_dst src dst bw_required rest best
      else
        let total_path := path_src ++ inter_path ++ path_dst
        let total_cost := pathWeightSum total_path bw_required
        if qlt total_cost best.1 then
          bestPairLoop net st lc_src lc_dst src dst bw_required rest
            (some total_cost, total_path)
        else
          bestPairLoop net st lc_src lc_dst src dst bw_required rest best

/-- `GlobalController.shortest_path`: same-domain requests delegate to the
local controller; cross-domain requests enumerate boundary pairs via
`bestPairLoop`; `Exception: Cannot find optimal path` when every pair
failed. -/
def GlobalController.shortest_path (net : SubstrateNetwork) (st : St)
    (src dst : ℕ) (bw_required : ℚ) : Except Err (List Link) :=
  match GlobalController.get_domain_id net src with
  | .error e => .error e
  | .ok src_domain =>
    match GlobalController.get_domain_id net dst with
    | .error e => .error e
    | .ok dst_domain =>
      if src_domain = dst_domain then
        match GlobalController.get_local_controller net src_domain with
        | .error e => .error e
        | .ok lc => .ok (LocalController.shortest_path lc st src dst bw_required)
      else
        match GlobalController.get_local_controller net src_domain,
              GlobalController.get_local_controller net dst_domain with
        | .error e, _ => .error e
        | .ok _, .error e => .error e
        | .ok lc_src, .ok lc_dst =>
          match bestPairLoop net st lc_src lc_dst src dst bw_required
              (lc_src.boundary_nodes.flatMap (fun b_src =>
                lc_dst.boundary_nodes.map (fun b_dst => (b_src, b_dst))))
              ((none : Option ℚ), ([] : List Link)) with
          | .error e => .error e
          | .ok best =>
            if best.1 = none then .error .cannotFindOptimalPath
            else .ok best.2

/-! ## Transactional resource manager
(`GlobalController.commit_mapping` / `release_mapping`) -/

/-- A node mapping `Dict[VirtualNode, SubstrateNode]`, as the insertion-ordered
association list of (virtual node, substrate node id) pairs. -/
def NodeMapping := List (VirtualNode × ℕ)

/-- The committed snapshot `Dict[VirtualLink, List[InterLink]]`, insertion
ordered. -/
def VlinkPaths := List (VirtualLink × List Link)

/-- `allocated_cpu.get(k, 0) + amt` stored back under `k`: update the existing
entry or append a fresh one, preserving dictionary insertion order. -/
def bump : List (ℕ × ℚ) → ℕ → ℚ → List (ℕ × ℚ)
  | [], k, amt => [(k, amt)]
  | p :: rest, k, amt =>
    if p.1 = k then (p.1, p.2 + amt) :: rest else p :: bump rest k amt

/-- The rollback's `for snode, cpu in allocated_cpu.items(): snode.available_cpu += cpu`. -/
def rollback_cpu : St → List (ℕ × ℚ) → St
  | st, [] => st
  | st, p :: rest => rollback_cpu (st.setCpu p.1 (st.cpu p.1 + p.2)) rest

/-- The rollback's `for link, bw in allocated_bw.items(): link.available_bw += bw`. -/
def rollback_bw : St → List (ℕ × ℚ) → St
  | st, [] => st
  | st, p :: rest => rollback_bw (st.setBw p.1 (st.bw p.1 + p.2)) rest

/-- The `except` handler of `commit_mapping`: restore every recorded CPU
deduction, then every recorded bandwidth deduction. -/
def commitRollback (st : St) (allocated_cpu allocated_bw : List (ℕ × ℚ)) : St :=
  rollback_bw (rollback_cpu st allocated_cpu) allocated_bw

/-- The CPU phase of `commit_mapping`: per `(vnode, snode)` pair check
`available_cpu`, deduct the demand and record it in `allocated_cpu`; stop at
the first failure, leaving the deductions made so far in place (the caller
rolls back). -/
def commitCpuLoop : St → List (ℕ × ℚ) → List (VirtualNode × ℕ) →
    Option Err × St × List (ℕ × ℚ)
  | st, alloc, [] => (none, st, alloc)
  | st, alloc, (vnode, sid) :: rest =>
    if st.cpu sid < vnode.cpu_demand then
      (some (.insufficientCpu sid vnode.id), st, alloc)
    else
      commitCpuLoop (st.setCpu sid (st.cpu sid - vnode.cpu_demand))
        (bump alloc sid vnode.cpu_demand) rest

/-- The per-hop deduction loop inside the bandwidth phase: per hop check
`available_bw`, deduct the virtual link's demand and record it. -/
def commitHops (bw_required : ℚ) : St → List (ℕ × ℚ) → List Link →
    Option Err × St × List (ℕ × ℚ)
  | st, alloc, [] => (none, st, alloc)
  | st, alloc, link :: rest =>
    if st.bw link.link_id < bw_required then
      (some (.insufficientBw link.src link.dst), st, alloc)
    else
      commitHops bw_required
        (st.setBw link.link_id (st.bw link.link_id - bw_required))
        (bump alloc link.link_id bw_required) rest

/-- `mapping[vlink.src]` — dictionary lookup, `KeyError` when absent. -/
def mappingLookup (mapping : List (VirtualNode × ℕ)) (v : VirtualNode) :
    Option ℕ :=
  (mapping.find? (fun p => p.1 = v)).map (fun p => p.2)

/-- The bandwidth phase of `commit_mapping`: per virtual link, look up the
mapped endpoints, route with the current (partially deducted) ledger, reject
an empty route, deduct the demand hop by hop, and append the route to the
snapshot; stop at the first failure, leaving prior deductions in place. -/
def commitVlinks (net : SubstrateNetwork) (mapping : List (VirtualNode × ℕ)) :
    St → List (ℕ × ℚ) → List (VirtualLink × List Link) → List VirtualLink →
    Option Err × St × List (ℕ × ℚ) × List (VirtualLink × List Link)
  | st, alloc, vlink_paths, [] => (none, st, alloc, vlink_paths)
  | st, alloc, vlink_paths, vlink :: rest =>
    match mappingLookup mapping vlink.src, mappingLookup mapping vlink.dst with
    | none, _ => (some .keyError, st, alloc, vlink_paths)
    | some _, none => (some .keyError, st, alloc, vlink_paths)
    | some src_snode, some dst_snode =>
      match GlobalController.shortest_path net st src_snode dst_snode vlink.bandwidth with
      | .error e => (some e, st, alloc, vlink_paths)
      | .ok path =>
        if path = [] then
          (some (.noPathFound vlink.src.id vlink.dst.id), st, alloc, vlink_paths)
        else
          match commitHops vlink.bandwidth st alloc path with
          | (some e, st2, alloc2) => (some e, st2, alloc2, vlink_paths)
          | (none, st2, alloc2) =>
            commitVlinks net mapping st2 alloc2
              (vlink_paths ++ [(vlink, path)]) rest

/-- `GlobalController.commit_mapping`: allocate CPU, then bandwidth along a
freshly routed path per virtual link; on any failure undo every recorded
deduction and surface the error (returning no snapshot); on success return
the snapshot `vlink → path`. -/
def GlobalController.commit_mapping (net : SubstrateNetwork) (st : St)
    (mapping : List (VirtualNode × ℕ)) (vlinks : List VirtualLink) :
    Except Err (List (VirtualLink × List Link)) × St :=
  match commitCpuLoop st [] mapping with
  | (some e, st1, allocated_cpu) =>
    (.error e, commitRollback st1 allocated_cpu [])
  | (none, st1, allocated_cpu) =>
    match commitVlinks net mapping st1 [] [] vlinks with
    | (some e, st2, allocated_bw, _) =>
      (.error e, commitRollback st2 allocated_cpu allocated_bw)
    | (none, st2, _, vlink_paths) =>
      (.ok vlink_paths, st2)

/-- `release_mapping`'s CPU loop: `snode.available_cpu += vnode.cpu_demand`. -/
def release_cpu : St → List (VirtualNode × ℕ) → St
  | st, [] => st
  | st, (vnode, sid) :: rest =>
    release_cpu (st.setCpu sid (st.cpu sid + vnode.cpu_demand)) rest

/-- Restore one stored path: `link.available_bw += vlink.bandwidth` per hop. -/
def release_path (bw : ℚ) : St → List Link → St
  | st, [] => st
  | st, link :: rest =>
    release_path bw (st.setBw link.link_id (st.bw link.link_id + bw)) rest

/-- `release_mapping`'s bandwidth loop over the snapshot. -/
def release_bw : St → List (VirtualLink × List Link) → St
  | st, [] => st
  | st, (vlink, path) :: rest => release_bw (release_path vlink.bandwidth st path) rest

/-- `GlobalController.release_mapping`: free the CPU of every mapped node and
the bandwidth of every hop of every snapshot path; the router is never
consulted. -/
def GlobalController.release_mapping (st : St)
    (mapping : List (VirtualNode × ℕ))
    (vlink_paths : List (VirtualLink × List Link)) : St :=
  release_bw (release_cpu st mapping) vlink_paths

/-! ## Accounting sums for the commit/rollback/release proofs -/

/-- Total amount recorded under key `k` in a temporary-allocation list. -/
def sumAlloc : List (ℕ × ℚ) → ℕ → ℚ
  | [], _ => 0
  | p :: rest, k => (if p.1 = k then p.2 else 0) + sumAlloc rest k

/-- Total CPU demand a node mapping places on substrate node `n`. -/
def cpuSum : List (VirtualNode × ℕ) → ℕ → ℚ
  | [], _ => 0
  | p :: rest, n => (if p.2 = n then p.1.cpu_demand else 0) + cpuSum rest n

/-- Bandwidth that reserving `bw` on every hop of `path` takes from link `l`
(counted with multiplicity). -/
def hopBwSum (bw : ℚ) : List Link → ℕ → ℚ
  | [], _ => 0
  | link :: rest, l => (if link.link_id = l then bw else 0) + hopBwSum bw rest l

/-- Bandwidth a snapshot takes from link `l`, over all its stored paths. -/
def pathsBwSum : List (VirtualLink × List Link) → ℕ → ℚ
  | [], _ => 0
  | q :: rest, l => hopBwSum q.1.bandwidth q.2 l + pathsBwSum rest l

theorem sumAlloc_bump (alloc : List (ℕ × ℚ)) (k : ℕ) (amt : ℚ) (n : ℕ) :
    sumAlloc (bump alloc k amt) n = sumAlloc alloc n + (if k = n then amt else 0) := by
  induction alloc with
  | nil => by_cases h : k = n <;> simp [bump, sumAlloc, h]
  | cons p rest ih =>
    by_cases hp : p.1 = k
    · simp only [bump, if_pos hp, sumAlloc, hp]
      by_cases h : k = n <;> simp [h] <;> try ring
    · simp only [bump, if_neg hp, sumAlloc, ih]
      ring

theorem pathsBwSum_append (ps qs : List (VirtualLink × List Link)) (l : ℕ) :
    pathsBwSum (ps ++ qs) l = pathsBwSum ps l + pathsBwSum qs l := by
  induction ps with
  | nil => simp [pathsBwSum]
  | cons q rest ih => simp [pathsBwSum, ih]; ring

theorem rollback_cpu_cpu (ac : List (ℕ × ℚ)) :
    ∀ st : St, ∀ n, (rollback_cpu st ac).cpu n = st.cpu n + sumAlloc ac n := by
  induction ac with
  | nil => intro st n; simp [rollback_cpu, sumAlloc]
  | cons p rest ih =>
    intro st n
    rw [rollback_cpu, ih]
    by_cases h : n = p.1
    · subst h; simp [sumAlloc]; try ring
    · have h2 : ¬ p.1 = n := fun he => h he.symm
      simp [sumAlloc, h, h2]
      try ring

theorem rollback_cpu_bw (ac : List (ℕ × ℚ)) :
    ∀ st : St, ∀ l, (rollback_cpu st ac).bw l = st.bw l := by
  induction ac with
  | nil => intro st l; simp [rollback_cpu]
  | cons p rest ih => intro st l; rw [rollback_cpu, ih]; simp

theorem rollback_bw_bw (ab : List (ℕ × ℚ)) :
    ∀ st : St, ∀ l, (rollback_bw st ab).bw l = st.bw l + sumAlloc ab l := by
  induction ab with
  | nil => intro st l; simp [rollback_bw, sumAlloc]
  | cons p rest ih =>
    intro st l
    rw [rollback_bw, ih]
    by_cases h : l = p.1
    · subst h; simp [sumAlloc]; try ring
    · have h2 : ¬ p.1 = l := fun he => h he.symm
      simp [sumAlloc, h, h2]
      try ring

theorem rollback_bw_cpu (ab : List (ℕ × ℚ)) :
    ∀ st : St, ∀ n, (rollback_bw st ab).cpu n = st.cpu n := by
  induction ab with
  | nil => intro st n; simp [rollback_bw]
  | cons p rest ih => intro st n; rw [rollback_bw, ih]; simp

theorem commitRollback_cpu (st : St) (ac ab : List (ℕ × ℚ)) (n : ℕ) :
    (commitRollback st ac ab).cpu n = st.cpu n + sumAlloc ac n := by
  rw [commitRollback, rollback_bw_cpu, rollback_cpu_cpu]

theorem commitRollback_bw (st : St) (ac ab : List (ℕ × ℚ)) (l : ℕ) :
    (commitRollback st ac ab).bw l = st.bw l + sumAlloc ab l := by
  rw [commitRollback, rollback_bw_bw, rollback_cpu_bw]

/-! ## Loop invariants for `commit_mapping` -/

theorem commitCpuLoop_inv (mapping : List (VirtualNode × ℕ)) :
    ∀ st alloc r st' alloc',
      commitCpuLoop st alloc mapping = (r, st', alloc') →
      (∀ n, st'.cpu n + sumAlloc alloc' n = st.cpu n + sumAlloc alloc n) ∧
      (∀ l, st'.bw l = st.bw l) := by
  induction mapping with
  | nil =>
    intro st alloc r st' alloc' h
    simp only [commitCpuLoop] at h
    injection h with h1 h23
    injection h23 with h2 h3
    subst h2; subst h3
    exact ⟨fun n => rfl, fun l => rfl⟩
  | cons p rest ih =>
    intro st alloc r st' alloc' h
    obtain ⟨vnode, sid⟩ := p
    by_cases hlt : st.cpu sid < vnode.cpu_demand
    · simp only [commitCpuLoop, if_pos hlt] at h
      injection h with h1 h23
      injection h23 with h2 h3
      subst h2; subst h3
      exact ⟨fun n => rfl, fun l => rfl⟩
    · simp only [commitCpuLoop, if_neg hlt] at h
      obtain ⟨h1, h2⟩ := ih _ _ _ _ _ h
      refine ⟨fun n => ?_, fun l => by rw [h2]; simp⟩
      have := h1 n
      rw [sumAlloc_bump] at this
      by_cases hn : n = sid
      · subst hn
        simp at this
        linarith [this]
      · have hns : ¬ sid = n := fun he => hn he.symm
        simp [hn, hns] at this
        linarith [this]

theorem commitHops_inv (bw : ℚ) (path : List Link) :
    ∀ st alloc r st' alloc',
      commitHops bw st alloc path = (r, st', alloc') →
      (∀ l, st'.bw l + sumAlloc alloc' l = st.bw l + sumAlloc alloc l) ∧
      (∀ n, st'.cpu n = st.cpu n) := by
  induction path with
  | nil =>
    intro st alloc r st' alloc' h
    simp only [commitHops] at h
    injection h with h1 h23
    injection h23 with h2 h3
    subst h2; subst h3
    exact ⟨fun l => rfl, fun n => rfl⟩
  | cons link rest ih =>
    intro st alloc r st' alloc' h
    by_cases hlt : st.bw link.link_id < bw
    · simp only [commitHops, if_pos hlt] at h
      injection h with h1 h23
      injection h23 with h2 h3
      subst h2; subst h3
      exact ⟨fun l => rfl, fun n => rfl⟩
    · simp only [commitHops, if_neg hlt] at h
      obtain ⟨h1, h2⟩ := ih _ _ _ _ _ h
      refine ⟨fun l => ?_, fun n => by rw [h2]; simp⟩
      have := h1 l
      rw [sumAlloc_bump] at this
      by_cases hl : l = link.link_id
      · subst hl
        simp at this
        linarith [this]
      · have hls : ¬ link.link_id = l := fun he => hl he.symm
        simp [hl, hls] at this
        linarith [this]

theorem commitVlinks_inv (net : SubstrateNetwork)
    (mapping : List (VirtualNode × ℕ)) (vlinks : List VirtualLink) :
    ∀ st alloc paths r st' alloc' paths',
      commitVlinks net mapping st alloc paths vlinks = (r, st', alloc', paths') →
      (∀ l, st'.bw l + sumAlloc alloc' l = st.bw l + sumAlloc alloc l) ∧
      (∀ n, st'.cpu n = st.cpu n) := by
  induction vlinks with
  | nil =>
    intro st alloc paths r st' alloc' paths' h
    simp only [commitVlinks] at h
    injection h with h1 h2
    injection h2 with h2a h2b
    injection h2b with h3 h4
    subst h2a; subst h3
    exact ⟨fun l => rfl, fun n => rfl⟩
  | cons vlink rest ih =>
    intro st alloc paths r st' alloc' paths' h
    simp only [commitVlinks] at h
    cases hsrc : mappingLookup mapping vlink.src with
    | none =>
      rw [hsrc] at h
      dsimp only at h
      injection h with h1 h2
      injection h2 with h2a h2b
      injection h2b with h3 h4
      subst h2a; subst h3
      exact ⟨fun l => rfl, fun n => rfl⟩
    | some src_snode =>
      rw [hsrc] at h
      cases hdst : mappingLookup mapping vlink.dst with
      | none =>
        rw [hdst] at h
        dsimp only at h
        injection h with h1 h2
        injection h2 with h2a h2b
        injection h2b with h3 h4
        subst h2a; subst h3
        exact ⟨fun l => rfl, fun n => rfl⟩
      | some dst_snode =>
        rw [hdst] at h
        dsimp only at h
        cases hsp : GlobalController.shortest_path net st src_snode dst_snode vlink.bandwidth with
        | error e =>
          rw [hsp] at h
          dsimp only at h
          injection h with h1 h2
          injection h2 with h2a h2b
          injection h2b with h3 h4
          subst h2a; subst h3
          exact ⟨fun l => rfl, fun n => rfl⟩
        | ok path =>
          rw [hsp] at h
          dsimp only at h
          by_cases hpath : path = []
          · rw [if_pos hpath] at h
            injection h with h1 h2
            injection h2 with h2a h2b
            injection h2b with h3 h4
            subst h2a; subst h3
            exact ⟨fun l => rfl, fun n => rfl⟩
          · rw [if_neg hpath] at h
            cases hch : commitHops vlink.bandwidth st alloc path with
            | mk r2 st2alloc2 =>
              obtain ⟨st2, alloc2⟩ := st2alloc2
              rw [hch] at h
              obtain ⟨hh1, hh2⟩ := commitHops_inv _ _ _ _ _ _ _ hch
              cases r2 with
              | some e2 =>
                dsimp only at h
                injection h with h1 h2
                injection h2 with h2a h2b
                injection h2b with h3 h4
                subst h2a; subst h3
                exact ⟨hh1, hh2⟩
              | none =>
                dsimp only at h
                obtain ⟨hi1, hi2⟩ := ih _ _ _ _ _ _ _ h
                exact ⟨fun l => by rw [hi1 l, hh1 l],
                       fun n => by rw [hi2 n, hh2 n]⟩

theorem commitCpuLoop_ok (mapping : List (VirtualNode × ℕ)) :
    ∀ st alloc st' alloc',
      commitCpuLoop st alloc mapping = (none, st', alloc') →
      ∀ n, st'.cpu n = st.cpu n - cpuSum mapping n := by
  induction mapping with
  | nil =>
    intro st alloc st' alloc' h n
    simp only [commitCpuLoop] at h
    injection h with h1 h23
    injection h23 with h2 h3
    subst h2
    simp [cpuSum]
  | cons p rest ih =>
    intro st alloc st' alloc' h n
    obtain ⟨vnode, sid⟩ := p
    by_cases hlt : st.cpu sid < vnode.cpu_demand
    · simp only [commitCpuLoop, if_pos hlt] at h
      injection h with h1 h23
      exact Option.noConfusion h1
    · simp only [commitCpuLoop, if_neg hlt] at h
      have := ih _ _ _ _ h n
      rw [this]
      by_cases hn : n = sid
      · subst hn
        simp [cpuSum]
        ring
      · have hns : ¬ sid = n := fun he => hn he.symm
        simp [cpuSum, hn, hns]

theorem commitHops_ok (bw : ℚ) (path : List Link) :
    ∀ st alloc st' alloc',
      commitHops bw st alloc path = (none, st', alloc') →
      ∀ l, st'.bw l = st.bw l - hopBwSum bw path l := by
  induction path with
  | nil =>
    intro st alloc st' alloc' h l
    simp only [commitHops] at h
    injection h with h1 h23
    injection h23 with h2 h3
    subst h2
    simp [hopBwSum]
  | cons link rest ih =>
    intro st alloc st' alloc' h l
    by_cases hlt : st.bw link.link_id < bw
    · simp only [commitHops, if_pos hlt] at h
      injection h with h1 h23
      exact Option.noConfusion h1
    · simp only [commitHops, if_neg hlt] at h
      have := ih _ _ _ _ h l
      rw [this]
      by_cases hl : l = link.link_id
      · subst hl
        simp [hopBwSum]
        ring
      · have hls : ¬ link.link_id = l := fun he => hl he.symm
        simp [hopBwSum, hl, hls]

theorem commitVlinks_ok (net : SubstrateNetwork)
    (mapping : List (VirtualNode × ℕ)) (vlinks : List VirtualLink) :
    ∀ st alloc paths st' alloc' paths',
      commitVlinks net mapping st alloc paths vlinks = (none, st', alloc', paths') →
      (∀ l, st'.bw l + pathsBwSum paths' l = st.bw l + pathsBwSum paths l) ∧
      (∀ n, st'.cpu n = st.cpu n) := by
  induction vlinks with
  | nil =>
    intro st alloc paths st' alloc' paths' h
    simp only [commitVlinks] at h
    injection h with h1 h2
    injection h2 with h2a h2b
    injection h2b with h3 h4
    subst h2a; subst h4
    exact ⟨fun l => rfl, fun n => rfl⟩
  | cons vlink rest ih =>
    intro st alloc paths st' alloc' paths' h
    simp only [commitVlinks] at h
    cases hsrc : mappingLookup mapping vlink.src with
    | none =>
      rw [hsrc] at h
      dsimp only at h
      injection h with h1 _
      exact Option.noConfusion h1
    | some src_snode =>
      rw [hsrc] at h
      cases hdst : mappingLookup mapping vlink.dst with
      | none =>
        rw [hdst] at h
        dsimp only at h
        injection h with h1 _
        exact Option.noConfusion h1
      | some dst_snode =>
        rw [hdst] at h
        dsimp only at h
        cases hsp : GlobalController.shortest_path net st src_snode dst_snode vlink.bandwidth with
        | error e =>
          rw [hsp] at h
          dsimp only at h
          injection h with h1 _
          exact Option.noConfusion h1
        | ok path =>
          rw [hsp] at h
          dsimp only at h
          by_cases hpath : path = []
          · rw [if_pos hpath] at h
            injection h with h1 _
            exact Option.noConfusion h1
          · rw [if_neg hpath] at h
            cases hch : commitHops vlink.bandwidth st alloc path with
            | mk r2 st2alloc2 =>
              obtain ⟨st2, alloc2⟩ := st2alloc2
              rw [hch] at h
              cases r2 with
              | some e2 =>
                dsimp only at h
                injection h with h1 _
                exact Option.noConfusion h1
              | none =>
                dsimp only at h
                have hhok := commitHops_ok _ _ _ _ _ _ hch
                have hhcpu := (commitHops_inv _ _ _ _ _ _ _ hch).2
                obtain ⟨hi1, hi2⟩ := ih _ _ _ _ _ _ h
                refine ⟨fun l => ?_, fun n => by rw [hi2 n, hhcpu n]⟩
                have h1 := hi1 l
                rw [pathsBwSum_append] at h1
                have h2 := hhok l
                have h3 : pathsBwSum [(vlink, path)] l = hopBwSum vlink.bandwidth path l := by
                  simp [pathsBwSum]
                rw [h3] at h1
                linarith [h1, h2]

theorem release_cpu_cpu (mapping : List (VirtualNode × ℕ)) :
    ∀ st : St, ∀ n, (release_cpu st mapping).cpu n = st.cpu n + cpuSum mapping n := by
  induction mapping with
  | nil => intro st n; simp [release_cpu, cpuSum]
  | cons p rest ih =>
    intro st n
    obtain ⟨vnode, sid⟩ := p
    rw [release_cpu, ih]
    by_cases h : n = sid
    · subst h; simp [cpuSum]; try ring
    · have h2 : ¬ sid = n := fun he => h he.symm
      simp [cpuSum, h, h2]

theorem release_cpu_bw (mapping : List (VirtualNode × ℕ)) :
    ∀ st : St, ∀ l, (release_cpu st mapping).bw l = st.bw l := by
  induction mapping with
  | nil => intro st l; simp [release_cpu]
  | cons p rest ih =>
    intro st l
    obtain ⟨vnode, sid⟩ := p
    rw [release_cpu, ih]
    simp

theorem release_path_bw (bw : ℚ) (path : List Link) :
    ∀ st : St, ∀ l, (release_path bw st path).bw l = st.bw l + hopBwSum bw path l := by
  induction path with
  | nil => intro st l; simp [release_path, hopBwSum]
  | cons link rest ih =>
    intro st l
    rw [release_path, ih]
    by_cases h : l = link.link_id
    · subst h; simp [hopBwSum]; try ring
    · have h2 : ¬ link.link_id = l := fun he => h he.symm
      simp [hopBwSum, h, h2]

theorem release_path_cpu (bw : ℚ) (path : List Link) :
    ∀ st : St, ∀ n, (release_path bw st path).cpu n = st.cpu n := by
  induction path with
  | nil => intro st n; simp [release_path]
  | cons link rest ih => intro st n; rw [release_path, ih]; simp

theorem release_bw_bw (ps : List (VirtualLink × List Link)) :
    ∀ st : St, ∀ l, (release_bw st ps).bw l = st.bw l + pathsBwSum ps l := by
  induction ps with
  | nil => intro st l; simp [release_bw, pathsBwSum]
  | cons q rest ih =>
    intro st l
    obtain ⟨vlink, path⟩ := q
    rw [release_bw, ih, release_path_bw]
    simp [pathsBwSum]
    ring

theorem release_bw_cpu (ps : List (VirtualLink × List Link)) :
    ∀ st : St, ∀ n, (release_bw st ps).cpu n = st.cpu n := by
  induction ps with
  | nil => intro st n; simp [release_bw]
  | cons q rest ih =>
    intro st n
    obtain ⟨vlink, path⟩ := q
    rw [release_bw, ih, release_path_cpu]

/-! ## Claim C1: rollback exactness of `commit_mapping` -/

/-- **C1.** For every node mapping and list of virtual links, if
`GlobalController.commit_mapping` fails (insufficient CPU, insufficient
bandwidth on a hop, no path for some virtual link — indeed any surfaced
error), then the state in which the error propagates agrees with the
pre-call ledger on every node's `available_cpu` and every link's
`available_bw`: all partial deductions are undone.  (No snapshot is stored:
the error outcome carries none by construction of `commit_mapping`.) -/
theorem commit_error_restores_ledger
    (net : SubstrateNetwork) (st : St) (mapping : List (VirtualNode × ℕ))
    (vlinks : List VirtualLink) (e : Err)
    (h : (GlobalController.commit_mapping net st mapping vlinks).1 = .error e) :
    (∀ n, (GlobalController.commit_mapping net st mapping vlinks).2.cpu n = st.cpu n) ∧
    (∀ l, (GlobalController.commit_mapping net st mapping vlinks).2.bw l = st.bw l) := by
  cases hc : commitCpuLoop st [] mapping with
  | mk r1 rest1 =>
    obtain ⟨st1, ac⟩ := rest1
    obtain ⟨hcpu1, hbw1⟩ := commitCpuLoop_inv _ _ _ _ _ _ hc
    cases r1 with
    | some e1 =>
      simp only [GlobalController.commit_mapping, hc]
      constructor
      · intro n
        rw [commitRollback_cpu]
        have := hcpu1 n
        simp [sumAlloc] at this
        linarith [this]
      · intro l
        rw [commitRollback_bw]
        rw [hbw1 l]
        simp [sumAlloc]
    | none =>
      cases hv : commitVlinks net mapping st1 [] [] vlinks with
      | mk r2 rest2 =>
        obtain ⟨st2, ab, ps⟩ := rest2
        obtain ⟨hbw2, hcpu2⟩ := commitVlinks_inv _ _ _ _ _ _ _ _ _ _ hv
        cases r2 with
        | some e2 =>
          simp only [GlobalController.commit_mapping, hc, hv]
          constructor
          · intro n
            rw [commitRollback_cpu, hcpu2 n]
            have := hcpu1 n
            simp [sumAlloc] at this
            linarith [this]
          · intro l
            rw [commitRollback_bw]
            have h2 := hbw2 l
            simp [sumAlloc] at h2
            rw [h2, hbw1 l]
        | none =>
          simp only [GlobalController.commit_mapping, hc, hv] at h
          exact Except.noConfusion h

/-- Ledger with 5 CPU on every node: too little for `vnodeW`'s demand 10. -/
def stW1 : St := ⟨fun _ => 5, fun _ => 100⟩

/-- A virtual node demanding 10 CPU. -/
def vnodeW : VirtualNode := ⟨1, 10, []⟩

/-- One-domain substrate with a single node (id 0) and no links. -/
def netW : SubstrateNetwork := ⟨[⟨0, [⟨0, 100, 1, 0⟩], [], []⟩], []⟩

theorem commit_error_restores_ledger_witness :
    (GlobalController.commit_mapping netW stW1 [(vnodeW, 0)] []).2.cpu 0 = stW1.cpu 0 :=
  (commit_error_restores_ledger netW stW1 [(vnodeW, 0)] []
    (.insufficientCpu 0 1) rfl).1 0

/-! ## Claim C2: commit followed by its matching release is the identity -/

/-- **C2.** Whenever `commit_mapping` succeeds with snapshot `ps`,
`release_mapping mapping ps` run on the post-commit ledger restores every
node's `available_cpu` and every link's `available_bw` to its pre-commit
value: the release replays exactly the amounts the commit deducted, on
exactly the nodes and hops it deducted them from. -/
theorem commit_release_roundtrip
    (net : SubstrateNetwork) (st : St) (mapping : List (VirtualNode × ℕ))
    (vlinks : List VirtualLink) (ps : List (VirtualLink × List Link))
    (h : (GlobalController.commit_mapping net st mapping vlinks).1 = .ok ps) :
    (∀ n, (GlobalController.release_mapping
        (GlobalController.commit_mapping net st mapping vlinks).2 mapping ps).cpu n
      = st.cpu n) ∧
    (∀ l, (GlobalController.release_mapping
        (GlobalController.commit_mapping net st mapping vlinks).2 mapping ps).bw l
      = st.bw l) := by
  cases hc : commitCpuLoop st [] mapping with
  | mk r1 rest1 =>
    obtain ⟨st1, ac⟩ := rest1
    obtain ⟨hcpu1, hbw1⟩ := commitCpuLoop_inv _ _ _ _ _ _ hc
    cases r1 with
    | some e1 =>
      simp only [GlobalController.commit_mapping, hc] at h
      exact Except.noConfusion h
    | none =>
      cases hv : commitVlinks net mapping st1 [] [] vlinks with
      | mk r2 rest2 =>
        obtain ⟨st2, ab, ps2⟩ := rest2
        cases r2 with
        | some e2 =>
          simp only [GlobalController.commit_mapping, hc, hv] at h
          exact Except.noConfusion h
        | none =>
          have hok := commitCpuLoop_ok _ _ _ _ _ hc
          obtain ⟨hvbw, hvcpu⟩ := commitVlinks_ok _ _ _ _ _ _ _ _ _ hv
          have hps : ps2 = ps := by
            simp only [GlobalController.commit_mapping, hc, hv] at h
            exact Except.ok.injEq .. ▸ h
          subst hps
          simp only [GlobalController.commit_mapping, hc, hv]
          constructor
          · intro n
            rw [GlobalController.release_mapping, release_bw_cpu, release_cpu_cpu,
              hvcpu n, hok n]
            ring
          · intro l
            rw [GlobalController.release_mapping, release_bw_bw, release_cpu_bw]
            have hb := hvbw l
            simp [pathsBwSum] at hb
            rw [hb, hbw1 l]

/-- Ledger with 100 CPU everywhere: enough for `vnodeW`. -/
def stW2 : St := ⟨fun _ => 100, fun _ => 100⟩

theorem commit_release_roundtrip_witness :
    (GlobalController.release_mapping
      (GlobalController.commit_mapping netW stW2 [(vnodeW, 0)] []).2
      [(vnodeW, 0)] []).cpu 0 = stW2.cpu 0 :=
  (commit_release_roundtrip netW stW2 [(vnodeW, 0)] [] [] rfl).1 0

/-! ## Claim C5: candidate selection -/

instance : Inhabited VirtualNode := ⟨⟨0, 0, []⟩⟩

instance : Inhabited SubstrateNode := ⟨⟨0, 0, 0, 0⟩⟩

instance : Inhabited SubstrateDomain := ⟨⟨0, [], [], []⟩⟩

/-- A substrate node living in domain 0. -/
def nodeD0 : SubstrateNode := ⟨0, 100, 1, 0⟩

/-- A substrate node living in domain 1. -/
def nodeD1 : SubstrateNode := ⟨1, 100, 1, 0⟩

/-- Two singleton domains. -/
def netC5 : SubstrateNetwork := ⟨[⟨0, [nodeD0], [], []⟩, ⟨1, [nodeD1], [], []⟩], []⟩

/-- A virtual node whose permitted-domain set is `{1}`. -/
def vnodeC5 : VirtualNode := ⟨0, 10, [1]⟩

/-- A ledger with ample resources everywhere. -/
def stFull : St := ⟨fun _ => 100, fun _ => 100⟩

/-- **C5** fails on the code: `vnodeC5` permits only domain 1, yet `nodeD0` —
a node of domain 0 with enough CPU — appears in its candidate list, because
`LocalController.get_candidates` filters by CPU only and
`process_request` concatenates the answers of every domain's controller. -/
theorem get_candidates_domain_filter_counterexample :
    vnodeC5.domains = [1] ∧
    GlobalController.process_request netC5 stFull ⟨[vnodeC5], []⟩ = [[nodeD0, nodeD1]] ∧
    netC5.domains.headI.domain_id = 0 ∧ nodeD0 ∈ netC5.domains.headI.nodes := by
  refine ⟨rfl, rfl, rfl, ?_⟩
  decide

/-- **C5** (corrected).  For every virtual node `v` of the request, the
candidate list built for `v` contains exactly the substrate nodes — of *all*
domains, in domain order — whose `available_cpu ≥ v.cpu_demand`; the
permitted-domain set of `v` is not consulted, so nodes outside a non-empty
permitted set do appear whenever their CPU suffices. -/
theorem candidates_are_exactly_cpu_feasible_nodes
    (net : SubstrateNetwork) (st : St) (request : VirtualNetwork)
    (p : VirtualNode × List SubstrateNode)
    (hp : p ∈ request.nodes.zip (GlobalController.process_request net st request)) :
    ∀ n, n ∈ p.2 ↔ ∃ d ∈ net.domains, n ∈ d.nodes ∧ p.1.cpu_demand ≤ st.cpu n.node_id := by
  have hzz : ∀ (l : List VirtualNode) (f : VirtualNode → List SubstrateNode),
      l.zip (l.map f) = l.map (fun v => (v, f v)) := by
    intro l f
    induction l with
    | nil => rfl
    | cons a t ih => simp [ih]
  have hz : request.nodes.zip (GlobalController.process_request net st request)
      = request.nodes.map (fun v => (v,
          (net.domains.map (fun d => LocalController.get_candidates d st v)).flatten)) := by
    rw [GlobalController.process_request, hzz]
  rw [hz] at hp
  obtain ⟨v, hv, hpe⟩ := List.mem_map.mp hp
  subst hpe
  intro n
  simp only [List.mem_flatten, List.mem_map, LocalController.get_candidates,
    List.mem_filter, decide_eq_true_eq]
  constructor
  · rintro ⟨l, ⟨d, hd, rfl⟩, hn⟩
    obtain ⟨hnd, hcpu⟩ := List.mem_filter.mp hn
    exact ⟨d, hd, hnd, by simpa using hcpu⟩
  · rintro ⟨d, hd, hnd, hcpu⟩
    refine ⟨(d.nodes.filter (fun node => v.cpu_demand ≤ st.cpu node.node_id)), ⟨d, hd, rfl⟩, ?_⟩
    exact List.mem_filter.mpr ⟨hnd, by simpa using hcpu⟩

theorem candidates_are_exactly_cpu_feasible_nodes_witness :
    nodeD0 ∈ (vnodeC5, [nodeD0, nodeD1]).2 ↔
      ∃ d ∈ netC5.domains, nodeD0 ∈ d.nodes ∧
        (vnodeC5, [nodeD0, nodeD1]).1.cpu_demand ≤ stFull.cpu nodeD0.node_id :=
  candidates_are_exactly_cpu_feasible_nodes netC5 stFull ⟨[vnodeC5], []⟩
    (vnodeC5, [nodeD0, nodeD1]) (by decide) nodeD0

/-! ## Claim C7: a virtual link between co-located endpoints -/

/-- Virtual node 0 of the two-node request. -/
def vA : VirtualNode := ⟨0, 10, []⟩

/-- Virtual node 1 of the two-node request. -/
def vB : VirtualNode := ⟨1, 10, []⟩

/-- A virtual link between `vA` and `vB` demanding 5 bandwidth. -/
def vlinkAB : VirtualLink := ⟨vA, vB, 5⟩

/-- One domain, two nodes (ids 0, 1) joined by link 0 with capacity 100. -/
def netC7 : SubstrateNetwork :=
  ⟨[⟨0, [⟨0, 100, 1, 0⟩, ⟨1, 100, 1, 0⟩], [⟨0, 0, 1, 100, 1, 1⟩], []⟩], []⟩

set_option maxHeartbeats 2000000 in
/-- **C7** fails on the code (the spec is the intent, the code a slip): with
both endpoints of `vlinkAB` mapped to substrate node 0 and ample resources
everywhere, the local router correctly answers the empty path for
`src = dst`, but `commit_mapping`'s `if not path:` conflates that empty path
with "no path" and rejects the whole request with
`No path found for virtual link 0->1` instead of accepting the link with an
empty path and no bandwidth deduction. -/
theorem same_node_vlink_rejected :
    LocalController.shortest_path netC7.domains.headI stFull 0 0 5 = [] ∧
    (GlobalController.commit_mapping netC7 stFull [(vA, 0), (vB, 0)] [vlinkAB]).1
      = .error (.noPathFound 0 1) := by
  constructor
  · norm_num [LocalController.shortest_path, dijkstraFuel, dijkstraLoop, popMin,
      buildPath, netC7]
  · norm_num [GlobalController.commit_mapping, commitCpuLoop, commitVlinks, bump,
      mappingLookup, GlobalController.shortest_path, GlobalController.get_domain_id,
      GlobalController.get_local_controller, LocalController.shortest_path,
      dijkstraFuel, dijkstraLoop, popMin, buildPath, LocalController.adj, relaxAll,
      commitRollback, rollback_cpu, rollback_bw, netC7, stFull, vA, vB, vlinkAB]

/-! ## Claim C6: the MC_VNM baseline's release of bandwidth -/

/-- `MC_VNM.reserve_resources`, CPU loop: `snode.available_cpu -= vnode.cpu_demand`. -/
def MC_VNM.reserve_cpu : St → List (VirtualNode × ℕ) → St
  | st, [] => st
  | st, (vnode, sid) :: rest =>
    MC_VNM.reserve_cpu (st.setCpu sid (st.cpu sid - vnode.cpu_demand)) rest

/-- Deduct `getattr(vlink, "bandwidth", 0)` — the virtual link's demand, which
exists — on every hop of one mapped path. -/
def MC_VNM.reserve_path (bw : ℚ) : St → List Link → St
  | st, [] => st
  | st, link :: rest =>
    MC_VNM.reserve_path bw (st.setBw link.link_id (st.bw link.link_id - bw)) rest

/-- `MC_VNM.reserve_resources`, bandwidth loop over the link mapping. -/
def MC_VNM.reserve_bw : St → List (VirtualLink × List Link) → St
  | st, [] => st
  | st, (vlink, path) :: rest =>
    MC_VNM.reserve_bw (MC_VNM.reserve_path vlink.bandwidth st path) rest

/-- `MC_VNM.reserve_resources`. -/
def MC_VNM.reserve_resources (st : St) (node_mapping : List (VirtualNode × ℕ))
    (link_mapping : List (VirtualLink × List Link)) : St :=
  MC_VNM.reserve_bw (MC_VNM.reserve_cpu st node_mapping) link_mapping

/-- The bandwidth restoration inside `MC_VNM.release_expired_requests`:
`link.available_bw += getattr(link, "bandwidth", 0)` — `link` here is the
*substrate* hop, whose `bandwidth` attribute is its total capacity, so each
hop gets its full capacity added back. -/
def MC_VNM.release_expired_path : St → List Link → St
  | st, [] => st
  | st, link :: rest =>
    MC_VNM.release_expired_path
      (st.setBw link.link_id (st.bw link.link_id + link.bandwidth)) rest

/-- The release loop over `info["link_mapping"].values()`. -/
def MC_VNM.release_expired_bw : St → List (VirtualLink × List Link) → St
  | st, [] => st
  | st, (_, path) :: rest =>
    MC_VNM.release_expired_bw (MC_VNM.release_expired_path st path) rest

/-- One `MC_VNM` active mapping: node mapping, link mapping, expiry. -/
structure MCInfo where
  node_mapping : List (VirtualNode × ℕ)
  link_mapping : List (VirtualLink × List Link)
  expire_time : ℚ
deriving DecidableEq

/-- Releasing one expired `MC_VNM` entry: free the CPU demands, then add each
hop's own capacity (sic) to its available bandwidth. -/
def MC_VNM.release_one (st : St) (info : MCInfo) : St :=
  MC_VNM.release_expired_bw (release_cpu st info.node_mapping) info.link_mapping

/-- `dict.pop(rid)`: remove (and return) the first entry keyed `rid`. -/
def popEntry (rid : ℕ) : List (ℕ × α) → Option α × List (ℕ × α)
  | [] => (none, [])
  | (k, v) :: rest =>
    if k = rid then (some v, rest)
    else
      let r := popEntry rid rest
      (r.1, (k, v) :: r.2)

/-- `MC_VNM.release_expired_requests`: collect the ids with
`expire_time ≤ current_time` in insertion order, then pop and release each. -/
def MC_VNM.release_expired_requests (current_time : ℚ)
    (active : List (ℕ × MCInfo)) (st : St) : List (ℕ × MCInfo) × St :=
  let expired_ids := (active.filter (fun p => p.2.expire_time ≤ current_time)).map Prod.fst
  expired_ids.foldl
    (fun acc rid =>
      match popEntry rid acc.1 with
      | (some info, rest) => (rest, MC_VNM.release_one acc.2 info)
      | (none, rest) => (rest, acc.2))
    (active, st)

/-- The hop of the C6 scenario: capacity 100, id 0. -/
def linkC6 : Link := ⟨0, 0, 1, 100, 1, 1⟩

/-- The virtual link of the C6 scenario: demand 10. -/
def vlinkC6 : VirtualLink := ⟨vA, vB, 10⟩

/-- **C6** is what the spec requires, and the code violates it (the spec
itself flags this as a bug): reserving deducts the virtual link's demand
(100 → 90 on hop 0), but releasing the expired mapping adds back the hop's
own *capacity* (`getattr(link, "bandwidth", 0)` on the substrate link), so
the hop ends at 190, not its pre-reservation 100. -/
theorem mcvnm_release_restores_capacity_not_demand :
    (MC_VNM.reserve_resources stFull [] [(vlinkC6, [linkC6])]).bw 0
        = stFull.bw 0 - vlinkC6.bandwidth ∧
    (MC_VNM.release_expired_requests 5
        [(0, ⟨[], [(vlinkC6, [linkC6])], 3⟩)]
        (MC_VNM.reserve_resources stFull [] [(vlinkC6, [linkC6])])).2.bw 0 = 190 ∧
    ((190 : ℚ) = stFull.bw 0 → False) := by
  refine ⟨?_, ?_, fun h => by simp [stFull] at h⟩
  · norm_num [MC_VNM.reserve_resources, MC_VNM.reserve_bw, MC_VNM.reserve_path,
      MC_VNM.reserve_cpu, stFull, linkC6, vlinkC6]
  · norm_num [MC_VNM.release_expired_requests, MC_VNM.release_one, popEntry,
      MC_VNM.release_expired_bw, MC_VNM.release_expired_path, release_cpu,
      MC_VNM.reserve_resources, MC_VNM.reserve_bw, MC_VNM.reserve_path,
      MC_VNM.reserve_cpu, stFull, linkC6, vlinkC6]

/-! ## Claim C3: validity of committed paths -/

/-- Does `path` form a connected hop chain from `a` to `b` (hops traversable
in either orientation, as the routers treat links as undirected)? -/
def pathConnects : List Link → ℕ → ℕ → Bool
  | [], a, b => a == b
  | link :: rest, a, b =>
    (link.src == a && pathConnects rest link.dst b) ||
    (link.dst == a && pathConnects rest link.src b)

/-- Two domains: domain 0 has nodes 0 and 1 (boundary 1) and *no* intra-domain
links — node 0 is isolated inside its domain; domain 1 has the single boundary
node 2.  One inter-domain link (id 5) joins 1 and 2. -/
def netC3 : SubstrateNetwork :=
  ⟨[⟨0, [⟨0, 100, 1, 0⟩, ⟨1, 100, 1, 0⟩], [], [1]⟩,
    ⟨1, [⟨2, 100, 1, 0⟩], [], [2]⟩],
   [⟨5, 1, 2, 100, 1, 1⟩]⟩

/-- The inter-domain link of `netC3`. -/
def interC3 : Link := ⟨5, 1, 2, 100, 1, 1⟩

set_option maxHeartbeats 2000000 in
/-- **C3** fails on the code: mapping `vlinkAB`'s endpoints to nodes 0 and 2
of `netC3`, `commit_mapping` *succeeds* and stores the path `[1–2]`, although
node 0 — the substrate node assigned to the virtual link's source — is not an
endpoint of that path: node 0 has no intra-domain route to boundary node 1,
the local router encodes that as the empty list, and the cross-domain
composition concatenates it unchecked.  The stored path is therefore not a
connected hop sequence between the assigned endpoints (and no synthetic-edge
re-expansion step exists anywhere in the source to repair cross-domain
paths — constructing a synthetic edge raises `TypeError` instead). -/
theorem committed_path_endpoints_mismatch :
    (GlobalController.commit_mapping netC3 stFull [(vA, 0), (vB, 2)] [vlinkAB]).1
      = .ok [(vlinkAB, [interC3])] ∧
    mappingLookup [(vA, 0), (vB, 2)] vlinkAB.src = some 0 ∧
    mappingLookup [(vA, 0), (vB, 2)] vlinkAB.dst = some 2 ∧
    pathConnects [interC3] 0 2 = false ∧
    (GlobalController.commit_mapping netC3 stFull [(vA, 0), (vB, 2)] [vlinkAB]).2.bw 5
      = stFull.bw 5 - vlinkAB.bandwidth := by
  have hcommit : GlobalController.commit_mapping netC3 stFull [(vA, 0), (vB, 2)] [vlinkAB]
      = ((.ok [(vlinkAB, [interC3])] : Except Err (List (VirtualLink × List Link))),
         (GlobalController.commit_mapping netC3 stFull [(vA, 0), (vB, 2)] [vlinkAB]).2) := by
    norm_num [GlobalController.commit_mapping, commitCpuLoop, commitVlinks, bump,
      mappingLookup, GlobalController.shortest_path, GlobalController.get_domain_id,
      GlobalController.get_local_controller, bestPairLoop,
      GlobalController.interdomain_shortest_path, boundaryPairsHavePath, listPairs,
      interBuildPath, pathWeightSum, LocalController.shortest_path, dijkstraFuel,
      dijkstraLoop, popMin, buildPath, LocalController.adj, relaxAll, commitHops,
      List.foldl_cons, List.foldl_nil, List.filterMap_cons, List.filterMap_nil,
      qlt, netC3, stFull, vA, vB, vlinkAB, interC3]
    try simp [commitHops, commitRollback, rollback_cpu, rollback_bw, bump,
      netC3, stFull, vA, vB, vlinkAB, interC3]
    try norm_num [commitHops, bump]
  refine ⟨congrArg Prod.fst hcommit, by decide, by decide, rfl, ?_⟩
  norm_num [GlobalController.commit_mapping, commitCpuLoop, commitVlinks, bump,
    mappingLookup, GlobalController.shortest_path, GlobalController.get_domain_id,
    GlobalController.get_local_controller, bestPairLoop,
    GlobalController.interdomain_shortest_path, boundaryPairsHavePath, listPairs,
    interBuildPath, pathWeightSum, LocalController.shortest_path, dijkstraFuel,
    dijkstraLoop, popMin, buildPath, LocalController.adj, relaxAll, commitHops,
    List.foldl_cons, List.foldl_nil, List.filterMap_cons, List.filterMap_nil,
    qlt, netC3, stFull, vA, vB, vlinkAB, interC3]
  try simp [commitHops, commitRollback, rollback_cpu, rollback_bw, bump,
    netC3, stFull, vA, vB, vlinkAB, interC3]
  try norm_num [commitHops, bump]

/-! ## Claim C8: `MP_VNE.release_expired_requests` -/

/-- One `MP_VNE` active mapping (`self._active_mappings[request_id]`):
node mapping, virtual links, committed path snapshot, expiry. -/
structure MappingInfo where
  mapping : List (VirtualNode × ℕ)
  vlinks : List VirtualLink
  vlink_paths : List (VirtualLink × List Link)
  expire_time : ℚ
deriving DecidableEq

/-- The body of the release loop: `info = self._active_mappings.pop(rid)`
followed by `release_mapping(info["mapping"], info["vlink_paths"])`; a
missing id (impossible in the source's single-threaded run) releases
nothing. -/
def releaseStep (acc : List (ℕ × MappingInfo) × St) (rid : ℕ) :
    List (ℕ × MappingInfo) × St :=
  match popEntry rid acc.1 with
  | (some info, rest) =>
    (rest, GlobalController.release_mapping acc.2 info.mapping info.vlink_paths)
  | (none, rest) => (rest, acc.2)

/-- `MP_VNE.release_expired_requests`: gather the ids with
`expire_time ≤ current_time` in insertion order, then pop and release each
via its stored snapshot. -/
def MP_VNE.release_expired_requests (current_time : ℚ)
    (active : List (ℕ × MappingInfo)) (st : St) :
    List (ℕ × MappingInfo) × St :=
  let expired_ids :=
    (active.filter (fun p => p.2.expire_time ≤ current_time)).map Prod.fst
  expired_ids.foldl releaseStep (active, st)

theorem releaseStep_cons (id k : ℕ) (hne : id ≠ k) (info : MappingInfo)
    (acc : List (ℕ × MappingInfo)) (st : St) :
    releaseStep ((k, info) :: acc, st) id
      = ((k, info) :: (releaseStep (acc, st) id).1, (releaseStep (acc, st) id).2) := by
  have hk : ¬ k = id := fun h => hne h.symm
  simp only [releaseStep, popEntry, if_neg hk]
  cases hp : popEntry id acc with
  | mk r rest =>
    cases r with
    | some info2 => simp
    | none => simp

theorem foldl_releaseStep_cons (ids : List ℕ) (k : ℕ) (info : MappingInfo) :
    ∀ acc st, (∀ id ∈ ids, id ≠ k) →
      ids.foldl releaseStep ((k, info) :: acc, st)
        = ((k, info) :: (ids.foldl releaseStep (acc, st)).1,
           (ids.foldl releaseStep (acc, st)).2) := by
  induction ids with
  | nil => intro acc st _; rfl
  | cons id rest ih =>
    intro acc st hk
    rw [List.foldl_cons, List.foldl_cons,
      releaseStep_cons id k (hk id (List.mem_cons_self id rest)) info acc st]
    have := ih (releaseStep (acc, st) id).1 (releaseStep (acc, st) id).2
      (fun i hi => hk i (List.mem_cons_of_mem _ hi))
    simpa using this

theorem releaseLoop_spec (t : ℚ) :
    ∀ (active : List (ℕ × MappingInfo)) (st : St),
      (active.map Prod.fst).Nodup →
      ((active.filter (fun p => p.2.expire_time ≤ t)).map Prod.fst).foldl
          releaseStep (active, st)
        = (active.filter (fun p => ¬ p.2.expire_time ≤ t),
           (active.filter (fun p => p.2.expire_time ≤ t)).foldl
             (fun s p => GlobalController.release_mapping s p.2.mapping p.2.vlink_paths)
             st) := by
  intro active
  induction active with
  | nil => intro st _; rfl
  | cons p rest ih =>
    intro st hnodup
    obtain ⟨k, info⟩ := p
    have h0 : (k :: rest.map Prod.fst).Nodup := by simpa using hnodup
    have hknotin : k ∉ rest.map Prod.fst := (List.nodup_cons.mp h0).1
    have hrestnodup : (rest.map Prod.fst).Nodup := (List.nodup_cons.mp h0).2
    have hidsne : ∀ id ∈ (rest.filter (fun p => p.2.expire_time ≤ t)).map Prod.fst,
        id ≠ k := by
      intro id hid hidk
      subst hidk
      apply hknotin
      obtain ⟨q, hq, hqf⟩ := List.mem_map.mp hid
      exact List.mem_map.mpr ⟨q, (List.mem_filter.mp hq).1, hqf⟩
    by_cases hp : info.expire_time ≤ t
    · have hstep : releaseStep ((k, info) :: rest, st) k
          = (rest, GlobalController.release_mapping st info.mapping info.vlink_paths) := by
        simp [releaseStep, popEntry]
      have hfp : ((k, info) :: rest).filter (fun p => p.2.expire_time ≤ t)
          = (k, info) :: rest.filter (fun p => p.2.expire_time ≤ t) := by
        simp [List.filter_cons, hp]
      have hfn : ((k, info) :: rest).filter (fun p => ¬ p.2.expire_time ≤ t)
          = rest.filter (fun p => ¬ p.2.expire_time ≤ t) := by
        simp [List.filter_cons, hp]
      rw [hfp, hfn]
      simp only [List.map_cons, List.foldl_cons]
      rw [hstep]
      exact ih (GlobalController.release_mapping st info.mapping info.vlink_paths)
        hrestnodup
    · have hfp : ((k, info) :: rest).filter (fun p => p.2.expire_time ≤ t)
          = rest.filter (fun p => p.2.expire_time ≤ t) := by
        simp [List.filter_cons, hp]
      have hfn : ((k, info) :: rest).filter (fun p => ¬ p.2.expire_time ≤ t)
          = (k, info) :: rest.filter (fun p => ¬ p.2.expire_time ≤ t) := by
        simp [List.filter_cons, hp]
      have hfold := foldl_releaseStep_cons
        ((rest.filter (fun p => p.2.expire_time ≤ t)).map Prod.fst) k info rest st hidsne
      rw [hfp, hfn, hfold, ih st hrestnodup]

/-- **C8.** For every time `t`, `release_expired_requests t` (a) leaves as the
active table exactly the entries with `expire_time > t`, unchanged and in
their original insertion order, and (b) produces the ledger obtained by
releasing exactly the entries with `expire_time ≤ t`, in insertion order,
each via its stored snapshot (`release_mapping` on `info.mapping` /
`info.vlink_paths`). -/
theorem release_expired_releases_exactly_expired (t : ℚ)
    (active : List (ℕ × MappingInfo)) (st : St)
    (hnodup : (active.map Prod.fst).Nodup) :
    (MP_VNE.release_expired_requests t active st).1
      = active.filter (fun p => ¬ p.2.expire_time ≤ t) ∧
    (MP_VNE.release_expired_requests t active st).2
      = (active.filter (fun p => p.2.expire_time ≤ t)).foldl
          (fun s p => GlobalController.release_mapping s p.2.mapping p.2.vlink_paths)
          st := by
  have h := releaseLoop_spec t active st hnodup
  rw [MP_VNE.release_expired_requests]
  constructor
  · rw [h]
  · rw [h]

/-- A mapping expiring at 3 — expired at time 5. -/
def infoExpired : MappingInfo := ⟨[(vA, 0)], [], [], 3⟩

/-- A mapping expiring at 10 — still live at time 5. -/
def infoLive : MappingInfo := ⟨[(vB, 1)], [], [], 10⟩

theorem release_expired_releases_exactly_expired_witness :
    (MP_VNE.release_expired_requests 5 [(0, infoExpired), (1, infoLive)] stFull).1
      = [(0, infoExpired), (1, infoLive)].filter (fun p => ¬ p.2.expire_time ≤ 5) ∧
    (MP_VNE.release_expired_requests 5 [(0, infoExpired), (1, infoLive)] stFull).2
      = ([(0, infoExpired), (1, infoLive)].filter (fun p => p.2.expire_time ≤ 5)).foldl
          (fun s p => GlobalController.release_mapping s p.2.mapping p.2.vlink_paths)
          stFull :=
  release_expired_releases_exactly_expired 5 [(0, infoExpired), (1, infoLive)] stFull
    (by decide)

/-! ## The PSO search and request lifecycle (`MP_VNE.fitness`, `MP_VNE.pso`,
`MP_VNE.handle_mapping_request`) -/

/-- Python's `int(round(x))`: round to nearest, ties to even. -/
def pyRound (q : ℚ) : ℤ :=
  let f := q - ⌊q⌋
  if f < 1/2 then ⌊q⌋
  else if 1/2 < f then ⌊q⌋ + 1
  else if ⌊q⌋ % 2 = 0 then ⌊q⌋ else ⌊q⌋ + 1

/-- The externally seeded pseudo-random stream of the `random` module: a
stream of uniform draws in `[0, 1)` together with a cursor.  Each primitive
call consumes one draw; two runs from equal `RNG` values see the same
stream. -/
structure RNG where
  vals : ℕ → ℚ
  idx : ℕ

/-- Consume one draw. -/
def RNG.next (g : RNG) : ℚ × RNG := (g.vals g.idx, ⟨g.vals, g.idx + 1⟩)

/-- `random.random()`: one uniform draw in `[0, 1)`. -/
def RNG.random (g : RNG) : ℚ × RNG := g.next

/-- `random.randint(a, b)`: a uniform integer in `[a, b]`, derived from one
uniform draw (`a + ⌊r · (b + 1 − a)⌋`). -/
def RNG.randint (g : RNG) (a b : ℤ) : ℤ × RNG :=
  let r := g.next
  (a + ⌊r.1 * ((b + 1 - a : ℤ) : ℚ)⌋, r.2)

/-- `MP_VNE.fitness`.  The source computes
`vlinks = getattr(vnetwork, "vlinks", [])`; `VirtualNetwork` stores its links
in the attribute `links` and has no `vlinks`, so the default `[]` is always
taken and the link-cost loop — whose body would call the nonexistent method
`GlobalController.shortest_path_cost` — never runs: the fitness is the node
cost alone.  (`candidates[i][idx]` is in range on every reachable call, by
the range invariant proved below.) -/
def MP_VNE.fitness (particle_idx : List ℤ) (candidates : List (List SubstrateNode))
    (request : VirtualRequest) : ℚ :=
  let vnodes := request.vnetwork.nodes
  let mapping : List SubstrateNode :=
    (candidates.zip particle_idx).map (fun p => p.1.getD p.2.toNat default)
  let node_cost : ℚ :=
    (vnodes.zip mapping).foldl (fun acc p => acc + p.1.cpu_demand * p.2.cost_per_unit) 0
  let link_cost : ℚ := 0
  node_cost + link_cost

/-- One particle of the swarm: velocity, position, personal best and its
score (`velocities[i]`, `population[i]`, `pbest[i]`, `pbest_score[i]`). -/
structure Particle where
  vel : List ℚ
  pos : List ℤ
  pbest : List ℤ
  pscore : ℚ

/-- `[random.randint(0, len(candidates[j]) - 1) for j in range(num_vnode)]`. -/
def randIndexList : RNG → List ℕ → List ℤ × RNG
  | g, [] => ([], g)
  | g, n :: rest =>
    let x := g.randint 0 ((n : ℤ) - 1)
    let xs := randIndexList x.2 rest
    (x.1 :: xs.1, xs.2)

/-- The population initialisation: one random index vector per particle. -/
def initPopulation (g : RNG) (lens : List ℕ) : ℕ → List (List ℤ) × RNG
  | 0 => ([], g)
  | k + 1 =>
    let p := randIndexList g lens
    let ps := initPopulation p.2 lens k
    (p.1 :: ps.1, ps.2)

/-- The per-dimension loop of one particle update: draw `r1, r2`, update the
velocity with `w = 0.7`, `c1 = c2 = 1.5`, and set
`x[j] ← int(round(x[j] + v[j])) % len(candidates[j])`. -/
def updateDims : RNG → List ℕ → List ℚ → List ℤ → List ℤ → List ℤ →
    List ℚ × List ℤ × RNG
  | g, n :: ls, v :: vs, x :: xs, p :: ps, q :: qs =>
    let r1 := g.random
    let r2 := r1.2.random
    let v2 : ℚ := (7 / 10) * v + (3 / 2) * r1.1 * ((p : ℚ) - (x : ℚ))
      + (3 / 2) * r2.1 * ((q : ℚ) - (x : ℚ))
    let x2 : ℤ := pyRound ((x : ℚ) + v2) % (n : ℤ)
    let rest := updateDims r2.2 ls vs xs ps qs
    (v2 :: rest.1, x2 :: rest.2.1, rest.2.2)
  | g, _, _, _, _, _ => ([], [], g)

/-- `population[i][mut_idx] = …`: list assignment at an index. -/
def setIdx : List ℤ → ℕ → ℤ → List ℤ
  | [], _, _ => []
  | _ :: xs, 0, z => z :: xs
  | x :: xs, i + 1, z => x :: setIdx xs i z

/-- The mutation step: with probability `0.1`, redraw one uniformly chosen
dimension to a uniform candidate index
(`population[i][mut_idx] = random.randint(0, len(candidates[mut_idx]) - 1)`). -/
def mutateStep (lens : List ℕ) (g : RNG) (pos2 : List ℤ) : List ℤ × RNG :=
  let r := g.random
  if r.1 < 1 / 10 then
    let mi := r.2.randint 0 ((lens.length : ℤ) - 1)
    let nv := mi.2.randint 0 ((lens.getD mi.1.toNat 0 : ℤ) - 1)
    (setIdx pos2 mi.1.toNat nv.1, nv.2)
  else (pos2, r.2)

/-- One particle's turn inside an iteration: velocity/position update on
every dimension, then the possible mutation, then the fitness evaluation and
the personal-best update (strictly better only). -/
def particleStep (candidates : List (List SubstrateNode)) (request : VirtualRequest)
    (lens : List ℕ) (gbest : List ℤ) (g : RNG) (pt : Particle) : Particle × RNG :=
  let ud := updateDims g lens pt.vel pt.pos pt.pbest gbest
  let vel2 := ud.1
  let pos2 := ud.2.1
  let g1 := ud.2.2
  let mres := mutateStep lens g1 pos2
  let pos3 := mres.1
  let g2 := mres.2
  let score := MP_VNE.fitness pos3 candidates request
  if score < pt.pscore then
    (⟨vel2, pos3, pos3, score⟩, g2)
  else
    (⟨vel2, pos3, pt.pbest, pt.pscore⟩, g2)

/-- The `for i in range(num_particles):` loop of one iteration; the global
best used by every particle of the pass is the one fixed at the start of the
iteration (the source updates `gbest` only after the particle loop). -/
def particlesPass (candidates : List (List SubstrateNode)) (request : VirtualRequest)
    (lens : List ℕ) (gbest : List ℤ) : RNG → List Particle → List Particle × RNG
  | g, [] => ([], g)
  | g, pt :: rest =>
    let s := particleStep candidates request lens gbest g pt
    let r := particlesPass candidates request lens gbest s.2 rest
    (s.1 :: r.1, r.2)

/-- `min(pbest_score)` (0 for an empty swarm, which the source never has). -/
def minScore : List Particle → ℚ
  | [] => 0
  | pt :: rest => rest.foldl (fun a q => min a q.pscore) pt.pscore

/-- `pbest_score.index(s)`: the first particle whose personal-best score is
`s`. -/
def firstWithScore (s : ℚ) : List Particle → Option Particle
  | [] => none
  | pt :: rest => if pt.pscore = s then some pt else firstWithScore s rest

/-- The mutable state of the PSO loop. -/
structure PsoState where
  g : RNG
  particles : List Particle
  gbest : List ℤ
  gbest_score : ℚ

/-- One outer iteration: a full particle pass, then the global-best update
from the minimum personal-best score (strictly better only, first index). -/
def psoIter (candidates : List (List SubstrateNode)) (request : VirtualRequest)
    (lens : List ℕ) (s : PsoState) : PsoState :=
  let pr := particlesPass candidates request lens s.gbest s.g s.particles
  let pts2 := pr.1
  let g2 := pr.2
  let cur := minScore pts2
  if cur < s.gbest_score then
    match firstWithScore cur pts2 with
    | some pt => ⟨g2, pts2, pt.pbest, cur⟩
    | none => ⟨g2, pts2, s.gbest, s.gbest_score⟩
  else ⟨g2, pts2, s.gbest, s.gbest_score⟩

/-- Initialisation: 50 random particles, zero velocities, personal bests at
the initial positions, global best at the first minimum. -/
def psoInit (g : RNG) (candidates : List (List SubstrateNode))
    (request : VirtualRequest) : PsoState :=
  let lens := candidates.map List.length
  let ip := initPopulation g lens 50
  let pts := ip.1.map (fun p =>
    ⟨p.map (fun _ => (0 : ℚ)), p, p, MP_VNE.fitness p candidates request⟩)
  let gscore := minScore pts
  let gbest :=
    match firstWithScore gscore pts with
    | some pt => pt.pbest
    | none => []
  ⟨ip.2, pts, gbest, gscore⟩

/-- The PSO state after `k` of the 30 iterations. -/
def psoStateN (candidates : List (List SubstrateNode)) (request : VirtualRequest)
    (g : RNG) : ℕ → PsoState
  | 0 => psoInit g candidates request
  | k + 1 => psoIter candidates request (candidates.map List.length)
      (psoStateN candidates request g k)

/-- `MP_VNE.pso`: the global best after 30 iterations (and the advanced
random stream). -/
def MP_VNE.pso (g : RNG) (candidates : List (List SubstrateNode))
    (request : VirtualRequest) : List ℤ × RNG :=
  let s := psoStateN candidates request g 30
  (s.gbest, s.g)

/-- The dictionary comprehension
`{vnode: candidate_nodes[i][idx] for i, (vnode, idx) in enumerate(zip(vnetwork.nodes, best_particle_idx))}`. -/
def materialise (vnetwork : VirtualNetwork)
    (candidate_nodes : List (List SubstrateNode)) (best : List ℤ) :
    List (VirtualNode × ℕ) :=
  (vnetwork.nodes.zip best).enum.map (fun p =>
    (p.2.1, ((candidate_nodes.getD p.1 []).getD p.2.2.toNat default).node_id))

/-- `MP_VNE.handle_mapping_request`: candidates, PSO, materialise the best
particle into a node mapping, commit (an error propagates with the ledger
rolled back and nothing stored), store
`{mapping, vlinks, vlink_paths, expire_time}` under the fresh id, and return
`(request_id, cost, info)` with `cost` the fitness of the best particle.  The
fresh identifier (`uuid.uuid4()` in the source) is supplied by the caller as
`request_id`. -/
def MP_VNE.handle_mapping_request (net : SubstrateNetwork) (g : RNG)
    (request_id : ℕ) (st : St) (active : List (ℕ × MappingInfo))
    (request : VirtualRequest) (current_time : ℚ) :
    Except Err (ℕ × ℚ × MappingInfo) × St × List (ℕ × MappingInfo) × RNG :=
  let vnetwork := request.vnetwork
  let lifetime := request.lifetime
  let candidate_nodes := GlobalController.process_request net st vnetwork
  let ps := MP_VNE.pso g candidate_nodes request
  let best := ps.1
  let g1 := ps.2
  let best_mapping := materialise vnetwork candidate_nodes best
  let vlinks := vnetwork.links
  match GlobalController.commit_mapping net st best_mapping vlinks with
  | (.error e, st2) => (.error e, st2, active, g1)
  | (.ok vlink_paths, st2) =>
    let info : MappingInfo := ⟨best_mapping, vlinks, vlink_paths, current_time + lifetime⟩
    let active2 := active ++ [(request_id, info)]
    let cost := MP_VNE.fitness best candidate_nodes request
    (.ok (request_id, cost, info), st2, active2, g1)

/-! ## Claim C4: the fitness function -/

/-- One domain containing both `nodeD0` and `nodeD1`, with no links at all. -/
def netC4 : SubstrateNetwork := ⟨[⟨0, [nodeD0, nodeD1], [], []⟩], []⟩

/-- A request whose network has two virtual nodes and one virtual link. -/
def reqC4 : VirtualRequest := ⟨⟨[vA, vB], [vlinkAB]⟩, 0, 100⟩

/-- **C4** fails on the code: on a request with a virtual link (`vlinkAB`)
whose mapped endpoints (nodes 0 and 1 of the linkless `netC4`) have *no*
feasible path — the router answers the empty "no path" list — `fitness` still
returns the plain node cost `Σ cpu_demand · cost_per_unit` (here 20), not
`+∞`, and adds no link cost: the source reads the nonexistent `vlinks`
attribute (the network stores `links`), so the link loop never runs, and the
`shortest_path_cost` method it would call does not exist on
`GlobalController`. -/
theorem fitness_ignores_virtual_links :
    reqC4.vnetwork.links = [vlinkAB] ∧
    MP_VNE.fitness [0, 0] [[nodeD0], [nodeD1]] reqC4
      = vA.cpu_demand * nodeD0.cost_per_unit + vB.cpu_demand * nodeD1.cost_per_unit ∧
    GlobalController.shortest_path netC4 stFull 0 1 vlinkAB.bandwidth = .ok [] := by
  refine ⟨rfl, ?_, ?_⟩
  · norm_num [MP_VNE.fitness, reqC4, vA, vB, nodeD0, nodeD1]
  · norm_num [GlobalController.shortest_path, GlobalController.get_domain_id,
      GlobalController.get_local_controller, LocalController.shortest_path,
      dijkstraFuel, dijkstraLoop, popMin, buildPath, LocalController.adj, relaxAll,
      qlt, netC4, stFull, nodeD0, nodeD1, vlinkAB]

/-! ## Claim C9: determinism of the embedding outcome -/

/-- **C9.** The embedding outcome is a deterministic function of the seeded
random stream, the substrate snapshot and the request: two executions of
`handle_mapping_request` from the same `RNG` value, ledger, active table,
request and clock — differing only in the fresh request identifier — produce
the same accept/reject outcome with identical `(cost, info)` payload (node
mapping, virtual links, path snapshot, expiry), identical resulting ledger,
and identical stored snapshots (the fresh identifier is the only part that
may differ). -/
theorem handle_mapping_request_deterministic
    (net : SubstrateNetwork) (g : RNG) (st : St) (active : List (ℕ × MappingInfo))
    (request : VirtualRequest) (t : ℚ) (rid1 rid2 : ℕ) :
    ((MP_VNE.handle_mapping_request net g rid1 st active request t).1.map
        (fun r => (r.2.1, r.2.2))
      = (MP_VNE.handle_mapping_request net g rid2 st active request t).1.map
        (fun r => (r.2.1, r.2.2))) ∧
    ((MP_VNE.handle_mapping_request net g rid1 st active request t).2.1
      = (MP_VNE.handle_mapping_request net g rid2 st active request t).2.1) ∧
    (((MP_VNE.handle_mapping_request net g rid1 st active request t).2.2.1).map Prod.snd
      = ((MP_VNE.handle_mapping_request net g rid2 st active request t).2.2.1).map Prod.snd) ∧
    ((MP_VNE.handle_mapping_request net g rid1 st active request t).2.2.2
      = (MP_VNE.handle_mapping_request net g rid2 st active request t).2.2.2) := by
  cases hcc : GlobalController.commit_mapping net st
      (materialise request.vnetwork
        (GlobalController.process_request net st request.vnetwork)
        (MP_VNE.pso g (GlobalController.process_request net st request.vnetwork)
          request).1)
      request.vnetwork.links with
  | mk r st2 =>
    cases r with
    | error e => simp [MP_VNE.handle_mapping_request, hcc, Except.map]
    | ok vps => simp [MP_VNE.handle_mapping_request, hcc, Except.map]

/-! ## Claim C10: every particle entry stays a valid candidate index -/

/-- `xs` is a vector of valid indices for candidate lists of sizes `lens`. -/
def inRangeList (lens : List ℕ) (xs : List ℤ) : Prop :=
  xs.length = lens.length ∧
  ∀ i, i < xs.length → 0 ≤ xs.getD i 0 ∧ xs.getD i 0 < (lens.getD i 0 : ℤ)

/-- The contract of the pseudo-random stream: every draw lies in `[0, 1)`. -/
def RNGok (g : RNG) : Prop := ∀ i, 0 ≤ g.vals i ∧ g.vals i < 1

theorem inRangeList_nil (lens : List ℕ) (h : lens = []) : inRangeList lens [] :=
  ⟨by simp [h], fun i hi => absurd hi (by simp)⟩

theorem inRangeList_cons (n : ℕ) (ls : List ℕ) (x : ℤ) (xs : List ℤ) :
    inRangeList (n :: ls) (x :: xs) ↔ (0 ≤ x ∧ x < (n : ℤ)) ∧ inRangeList ls xs := by
  constructor
  · rintro ⟨hlen, hall⟩
    refine ⟨by simpa using hall 0 (by simp), by simpa using hlen, fun i hi => ?_⟩
    simpa using hall (i + 1) (by simpa using Nat.succ_lt_succ hi)
  · rintro ⟨⟨h1, h2⟩, hlen, hall⟩
    refine ⟨by simpa using hlen, fun i hi => ?_⟩
    cases i with
    | zero => simpa using ⟨h1, h2⟩
    | succ j =>
      have := hall j (by simpa using Nat.lt_of_succ_lt_succ hi)
      simpa using this

theorem randint0_range (g : RNG) (n : ℕ) (hg : RNGok g) (hn : 0 < n) :
    0 ≤ (g.randint 0 ((n : ℤ) - 1)).1 ∧ (g.randint 0 ((n : ℤ) - 1)).1 < (n : ℤ) := by
  obtain ⟨h0, h1⟩ := hg g.idx
  have hcast : (((n : ℤ) - 1 + 1 - 0 : ℤ) : ℚ) = (n : ℚ) := by push_cast; ring
  have hnq : (0 : ℚ) < (n : ℚ) := by exact_mod_cast hn
  constructor
  · show 0 ≤ 0 + ⌊g.vals g.idx * (((n : ℤ) - 1 + 1 - 0 : ℤ) : ℚ)⌋
    rw [hcast, zero_add]
    exact Int.floor_nonneg.mpr (mul_nonneg h0 (le_of_lt hnq))
  · show 0 + ⌊g.vals g.idx * (((n : ℤ) - 1 + 1 - 0 : ℤ) : ℚ)⌋ < (n : ℤ)
    rw [hcast, zero_add]
    apply Int.floor_lt.mpr
    have h2 : g.vals g.idx * (n : ℚ) < 1 * (n : ℚ) := mul_lt_mul_of_pos_right h1 hnq
    rw [one_mul] at h2
    exact h2.trans_le (by push_cast; exact le_refl _)

theorem emod_range (z : ℤ) (n : ℕ) (hn : 0 < n) :
    0 ≤ z % (n : ℤ) ∧ z % (n : ℤ) < (n : ℤ) :=
  ⟨Int.emod_nonneg z (by exact_mod_cast hn.ne'),
   Int.emod_lt_of_pos z (by exact_mod_cast hn)⟩

theorem randIndexList_range : ∀ (lens : List ℕ) (g : RNG), RNGok g →
    (∀ n ∈ lens, 0 < n) →
    inRangeList lens (randIndexList g lens).1 ∧ RNGok (randIndexList g lens).2 := by
  intro lens
  induction lens with
  | nil =>
    intro g hg _
    exact ⟨inRangeList_nil [] rfl, hg⟩
  | cons n ls ih =>
    intro g hg hpos
    have hn : 0 < n := hpos n (by simp)
    have hx := randint0_range g n hg hn
    have hg2 : RNGok (g.randint 0 ((n : ℤ) - 1)).2 := fun i => hg i
    obtain ⟨hrange, hgout⟩ :=
      ih (g.randint 0 ((n : ℤ) - 1)).2 hg2 (fun m hm => hpos m (by simp [hm]))
    exact ⟨(inRangeList_cons n ls _ _).mpr ⟨hx, hrange⟩, hgout⟩

theorem initPopulation_range : ∀ (k : ℕ) (g : RNG) (lens : List ℕ), RNGok g →
    (∀ n ∈ lens, 0 < n) →
    (∀ p ∈ (initPopulation g lens k).1, inRangeList lens p) ∧
    RNGok (initPopulation g lens k).2 := by
  intro k
  induction k with
  | zero => intro g lens hg _; exact ⟨fun p hp => absurd hp (by simp [initPopulation]), hg⟩
  | succ k ih =>
    intro g lens hg hpos
    obtain ⟨h1, hgmid⟩ := randIndexList_range lens g hg hpos
    obtain ⟨h2, hgout⟩ := ih (randIndexList g lens).2 lens hgmid hpos
    refine ⟨fun p hp => ?_, hgout⟩
    rcases List.mem_cons.mp hp with rfl | hp2
    · exact h1
    · exact h2 p hp2

theorem initPopulation_length : ∀ (k : ℕ) (g : RNG) (lens : List ℕ),
    (initPopulation g lens k).1.length = k := by
  intro k
  induction k with
  | zero => intro g lens; rfl
  | succ k ih => intro g lens; simp [initPopulation, ih]

theorem updateDims_range : ∀ (lens : List ℕ) (g : RNG) (vel : List ℚ)
    (pos pb gb : List ℤ), RNGok g → (∀ n ∈ lens, 0 < n) →
    vel.length = lens.length → pos.length = lens.length →
    pb.length = lens.length → gb.length = lens.length →
    (updateDims g lens vel pos pb gb).1.length = lens.length ∧
    inRangeList lens (updateDims g lens vel pos pb gb).2.1 ∧
    RNGok (updateDims g lens vel pos pb gb).2.2 := by
  intro lens
  induction lens with
  | nil =>
    intro g vel pos pb gb hg _ hv hp hpb hgb
    rw [List.length_eq_zero.mp hv, List.length_eq_zero.mp hp,
      List.length_eq_zero.mp hpb, List.length_eq_zero.mp hgb]
    exact ⟨rfl, inRangeList_nil [] rfl, hg⟩
  | cons n ls ih =>
    intro g vel pos pb gb hg hpos hv hp hpb hgb
    cases vel with
    | nil => simp at hv
    | cons v vs =>
      cases pos with
      | nil => simp at hp
      | cons x xs =>
        cases pb with
        | nil => simp at hpb
        | cons p ps =>
          cases gb with
          | nil => simp at hgb
          | cons q qs =>
            have hn : 0 < n := hpos n (by simp)
            have hg2 : RNGok ((g.random).2.random).2 := fun i => hg i
            obtain ⟨ihlen, ihrange, ihg⟩ := ih ((g.random).2.random).2 vs xs ps qs hg2
              (fun m hm => hpos m (by simp [hm]))
              (by simpa using hv) (by simpa using hp)
              (by simpa using hpb) (by simpa using hgb)
            have hx2 := emod_range (pyRound ((x : ℚ) +
              ((7 / 10) * v + (3 / 2) * (g.random).1 * ((p : ℚ) - (x : ℚ))
                + (3 / 2) * ((g.random).2.random).1 * ((q : ℚ) - (x : ℚ))))) n hn
            exact ⟨by simpa [updateDims] using ihlen,
              (inRangeList_cons n ls _ _).mpr ⟨hx2, ihrange⟩, ihg⟩

theorem setIdx_length : ∀ (xs : List ℤ) (i : ℕ) (z : ℤ),
    (setIdx xs i z).length = xs.length := by
  intro xs
  induction xs with
  | nil => intro i z; rfl
  | cons x xs ih =>
    intro i z
    cases i with
    | zero => rfl
    | succ j => simp [setIdx, ih]

theorem getD_setIdx : ∀ (xs : List ℤ) (i j : ℕ) (z : ℤ),
    (setIdx xs i z).getD j 0 = if i = j ∧ j < xs.length then z else xs.getD j 0 := by
  intro xs
  induction xs with
  | nil => intro i j z; simp [setIdx]
  | cons x xs ih =>
    intro i j z
    cases i with
    | zero =>
      cases j with
      | zero => simp [setIdx]
      | succ j2 => simp [setIdx]
    | succ i2 =>
      cases j with
      | zero => simp [setIdx]
      | succ j2 =>
        have := ih i2 j2 z
        simp only [setIdx, List.getD_cons_succ, this, List.length_cons]
        by_cases hc : i2 = j2 ∧ j2 < xs.length
        · rw [if_pos hc, if_pos ⟨by rw [hc.1], Nat.succ_lt_succ hc.2⟩]
        · rw [if_neg hc, if_neg (fun hcc => hc ⟨Nat.succ_injective hcc.1,
            Nat.lt_of_succ_lt_succ hcc.2⟩)]

theorem inRangeList_setIdx (lens : List ℕ) (xs : List ℤ) (i : ℕ) (z : ℤ)
    (h : inRangeList lens xs)
    (hz : i < xs.length → 0 ≤ z ∧ z < (lens.getD i 0 : ℤ)) :
    inRangeList lens (setIdx xs i z) := by
  obtain ⟨hlen, hall⟩ := h
  refine ⟨by rw [setIdx_length, hlen], fun j hj => ?_⟩
  rw [setIdx_length] at hj
  rw [getD_setIdx]
  by_cases hc : i = j ∧ j < xs.length
  · rw [if_pos hc]
    obtain ⟨hij, hjl⟩ := hc
    subst hij
    exact hz hjl
  · rw [if_neg hc]
    exact hall j hj

theorem getD_mem_of_lt (lens : List ℕ) (i : ℕ) (hi : i < lens.length) :
    lens.getD i 0 ∈ lens := by
  rw [List.getD_eq_getElem lens 0 hi]
  exact List.getElem_mem hi

theorem mutateStep_ok (lens : List ℕ) (g : RNG) (pos2 : List ℤ)
    (hg : RNGok g) (hpos : ∀ n ∈ lens, 0 < n) (h2 : inRangeList lens pos2) :
    inRangeList lens (mutateStep lens g pos2).1 ∧ RNGok (mutateStep lens g pos2).2 := by
  rw [mutateStep]
  by_cases hr : (g.random).1 < 1 / 10
  · rw [if_pos hr]
    rcases Nat.eq_zero_or_pos lens.length with hlen | hlen
    · refine ⟨inRangeList_setIdx lens pos2 _ _ h2 (fun hi => ?_), fun i => hg i⟩
      rw [h2.1, hlen] at hi
      exact absurd hi (by simp)
    · have hgr : RNGok (g.random).2 := fun i => hg i
      have hmi := randint0_range (g.random).2 lens.length hgr hlen
      have hmitoNat : ((g.random).2.randint 0 ((lens.length : ℤ) - 1)).1.toNat
          < lens.length := by
        have := hmi.2
        omega
      have hmem := getD_mem_of_lt lens _ hmitoNat
      have hm : 0 < lens.getD ((g.random).2.randint 0 ((lens.length : ℤ) - 1)).1.toNat 0 :=
        hpos _ hmem
      have hgr2 : RNGok ((g.random).2.randint 0 ((lens.length : ℤ) - 1)).2 :=
        fun i => hg i
      have hnv := randint0_range _ _ hgr2 hm
      exact ⟨inRangeList_setIdx lens pos2 _ _ h2 (fun _ => hnv), fun i => hg i⟩
  · rw [if_neg hr]
    exact ⟨h2, fun i => hg i⟩

/-- The inductive invariant for one particle: position and personal best are
valid index vectors, the velocity has one entry per dimension. -/
def ParticleOk (lens : List ℕ) (pt : Particle) : Prop :=
  inRangeList lens pt.pos ∧ inRangeList lens pt.pbest ∧ pt.vel.length = lens.length

theorem particleStep_ok (candidates : List (List SubstrateNode))
    (request : VirtualRequest) (lens : List ℕ) (gbest : List ℤ) (g : RNG)
    (pt : Particle) (hg : RNGok g) (hpos : ∀ n ∈ lens, 0 < n)
    (hpt : ParticleOk lens pt) (hgb : inRangeList lens gbest) :
    ParticleOk lens (particleStep candidates request lens gbest g pt).1 ∧
    RNGok (particleStep candidates request lens gbest g pt).2 := by
  obtain ⟨hptpos, hpb, hvel⟩ := hpt
  obtain ⟨hvlen, hpos2, hg1⟩ := updateDims_range lens g pt.vel pt.pos pt.pbest gbest
    hg hpos hvel hptpos.1 hpb.1 hgb.1
  obtain ⟨hpos3, hg2⟩ := mutateStep_ok lens
    (updateDims g lens pt.vel pt.pos pt.pbest gbest).2.2
    (updateDims g lens pt.vel pt.pos pt.pbest gbest).2.1 hg1 hpos hpos2
  rw [particleStep]
  by_cases hs : MP_VNE.fitness
      (mutateStep lens (updateDims g lens pt.vel pt.pos pt.pbest gbest).2.2
        (updateDims g lens pt.vel pt.pos pt.pbest gbest).2.1).1 candidates request
    < pt.pscore
  · rw [if_pos hs]
    exact ⟨⟨hpos3, hpos3, hvlen⟩, hg2⟩
  · rw [if_neg hs]
    exact ⟨⟨hpos3, hpb, hvlen⟩, hg2⟩

theorem particlesPass_ok (candidates : List (List SubstrateNode))
    (request : VirtualRequest) (lens : List ℕ) (gbest : List ℤ) :
    ∀ (pts : List Particle) (g : RNG), RNGok g → (∀ n ∈ lens, 0 < n) →
    (∀ pt ∈ pts, ParticleOk lens pt) → inRangeList lens gbest →
    (∀ pt ∈ (particlesPass candidates request lens gbest g pts).1, ParticleOk lens pt) ∧
    RNGok (particlesPass candidates request lens gbest g pts).2 := by
  intro pts
  induction pts with
  | nil => intro g hg _ _ _; exact ⟨fun pt hpt => absurd hpt (by simp [particlesPass]), hg⟩
  | cons pt0 rest ih =>
    intro g hg hpos hall hgb
    obtain ⟨h1, hgmid⟩ := particleStep_ok candidates request lens gbest g pt0 hg hpos
      (hall pt0 (by simp)) hgb
    obtain ⟨h2, hgout⟩ := ih (particleStep candidates request lens gbest g pt0).2 hgmid
      hpos (fun q hq => hall q (by simp [hq])) hgb
    refine ⟨fun q hq => ?_, hgout⟩
    rcases List.mem_cons.mp hq with rfl | hq2
    · exact h1
    · exact h2 q hq2

theorem foldl_min_choice : ∀ (l : List Particle) (a : ℚ),
    l.foldl (fun a q => min a q.pscore) a = a ∨
    ∃ q ∈ l, l.foldl (fun a q => min a q.pscore) a = q.pscore := by
  intro l
  induction l with
  | nil => intro a; exact Or.inl rfl
  | cons q l ih =>
    intro a
    rw [List.foldl_cons]
    rcases ih (min a q.pscore) with h | ⟨q2, hq2, he⟩
    · rcases min_choice a q.pscore with hm | hm
      · exact Or.inl (h.trans hm)
      · exact Or.inr ⟨q, by simp, h.trans hm⟩
    · exact Or.inr ⟨q2, by simp [hq2], he⟩

theorem minScore_attained (l : List Particle) (hl : l ≠ []) :
    ∃ q ∈ l, q.pscore = minScore l := by
  cases l with
  | nil => exact absurd rfl hl
  | cons p rest =>
    rw [minScore]
    rcases foldl_min_choice rest p.pscore with h | ⟨q, hq, he⟩
    · exact ⟨p, by simp, h.symm⟩
    · exact ⟨q, by simp [hq], he.symm⟩

theorem firstWithScore_finds : ∀ (l : List Particle) (s : ℚ),
    (∃ q ∈ l, q.pscore = s) → ∃ pt, firstWithScore s l = some pt ∧ pt ∈ l := by
  intro l
  induction l with
  | nil => rintro s ⟨q, hq, _⟩; exact absurd hq (by simp)
  | cons p l ih =>
    rintro s ⟨q, hq, hs⟩
    by_cases hp : p.pscore = s
    · exact ⟨p, by simp [firstWithScore, hp], by simp⟩
    · rcases List.mem_cons.mp hq with rfl | hql
      · exact absurd hs hp
      · obtain ⟨pt, hfind, hmem⟩ := ih s ⟨q, hql, hs⟩
        exact ⟨pt, by simp [firstWithScore, hp, hfind], by simp [hmem]⟩

theorem firstWithScore_mem : ∀ (l : List Particle) (s : ℚ) (pt : Particle),
    firstWithScore s l = some pt → pt ∈ l := by
  intro l
  induction l with
  | nil => intro s pt h; exact absurd h (by simp [firstWithScore])
  | cons p l ih =>
    intro s pt h
    rw [firstWithScore] at h
    by_cases hp : p.pscore = s
    · rw [if_pos hp] at h
      injection h with h
      simp [h.symm]
    · rw [if_neg hp] at h
      exact List.mem_cons_of_mem _ (ih s pt h)

/-- The inductive invariant for the whole PSO state. -/
def StateOk (lens : List ℕ) (s : PsoState) : Prop :=
  (∀ pt ∈ s.particles, ParticleOk lens pt) ∧ inRangeList lens s.gbest ∧ RNGok s.g

theorem psoIter_ok (candidates : List (List SubstrateNode))
    (request : VirtualRequest) (lens : List ℕ) (s : PsoState)
    (hpos : ∀ n ∈ lens, 0 < n) (hs : StateOk lens s) :
    StateOk lens (psoIter candidates request lens s) := by
  obtain ⟨hpts, hgb, hg⟩ := hs
  obtain ⟨hpass, hgout⟩ := particlesPass_ok candidates request lens s.gbest s.particles
    s.g hg hpos hpts hgb
  rw [psoIter]
  by_cases hcur : minScore (particlesPass candidates request lens s.gbest s.g s.particles).1
      < s.gbest_score
  · rw [if_pos hcur]
    cases hfind : firstWithScore
        (minScore (particlesPass candidates request lens s.gbest s.g s.particles).1)
        (particlesPass candidates request lens s.gbest s.g s.particles).1 with
    | none => exact ⟨hpass, hgb, hgout⟩
    | some pt =>
      have hmem := firstWithScore_mem _ _ _ hfind
      exact ⟨hpass, (hpass pt hmem).2.1, hgout⟩
  · rw [if_neg hcur]
    exact ⟨hpass, hgb, hgout⟩

theorem psoInit_ok (g : RNG) (candidates : List (List SubstrateNode))
    (request : VirtualRequest) (hg : RNGok g)
    (hpos : ∀ n ∈ candidates.map List.length, 0 < n) :
    StateOk (candidates.map List.length) (psoInit g candidates request) := by
  obtain ⟨hip, hgout⟩ :=
    initPopulation_range 50 g (candidates.map List.length) hg hpos
  have hptok : ∀ pt ∈ (initPopulation g (candidates.map List.length) 50).1.map
      (fun p => (⟨p.map (fun _ => (0 : ℚ)), p, p,
        MP_VNE.fitness p candidates request⟩ : Particle)),
      ParticleOk (candidates.map List.length) pt := by
    intro pt hpt
    obtain ⟨p, hp, rfl⟩ := List.mem_map.mp hpt
    have hpr := hip p hp
    exact ⟨hpr, hpr, by rw [List.length_map]; exact hpr.1⟩
  rw [psoInit]
  refine ⟨hptok, ?_, hgout⟩
  have hne : (initPopulation g (candidates.map List.length) 50).1.map
      (fun p => (⟨p.map (fun _ => (0 : ℚ)), p, p,
        MP_VNE.fitness p candidates request⟩ : Particle)) ≠ [] := by
    intro h
    have := congrArg List.length h
    rw [List.length_map, initPopulation_length] at this
    simp at this
  obtain ⟨q, hq, hqs⟩ := minScore_attained _ hne
  obtain ⟨pt, hfind, hmem⟩ := firstWithScore_finds _ _ ⟨q, hq, hqs⟩
  rw [hfind]
  exact (hptok pt hmem).2.1

theorem psoStateN_ok (candidates : List (List SubstrateNode))
    (request : VirtualRequest) (g : RNG) (hg : RNGok g)
    (hpos : ∀ n ∈ candidates.map List.length, 0 < n) :
    ∀ k, StateOk (candidates.map List.length) (psoStateN candidates request g k) := by
  intro k
  induction k with
  | zero => exact psoInit_ok g candidates request hg hpos
  | succ k ih =>
    exact psoIter_ok candidates request (candidates.map List.length)
      (psoStateN candidates request g k) hpos ih

/-- **C10.** Provided every candidate list is non-empty and the random stream
honours its `[0, 1)` contract, every particle entry is a valid index
throughout the PSO search: in the state after initialisation (`k = 0`) and
after each of the iterations (`k = 1, …`), every particle's position and
personal best and the global best are vectors of indices `x` with
`0 ≤ x[j] < len(candidates[j])` — the `% len(candidates[j])` after rounding
yields a non-negative in-range index even for negative velocity terms, and
the mutation draw is in range by construction — and the returned best
particle is in range, so every `candidates[j][x[j]]` lookup during fitness
evaluation and materialisation is in bounds. -/
theorem pso_population_indices_in_range
    (g : RNG) (candidates : List (List SubstrateNode)) (request : VirtualRequest)
    (hg : RNGok g) (hc : ∀ c ∈ candidates, c ≠ []) :
    (∀ k, StateOk (candidates.map List.length) (psoStateN candidates request g k)) ∧
    inRangeList (candidates.map List.length) (MP_VNE.pso g candidates request).1 := by
  have hpos : ∀ n ∈ candidates.map List.length, 0 < n := by
    intro n hn
    obtain ⟨c, hcmem, rfl⟩ := List.mem_map.mp hn
    exact List.length_pos.mpr (hc c hcmem)
  have hall := psoStateN_ok candidates request g hg hpos
  refine ⟨hall, ?_⟩
  simp only [MP_VNE.pso]
  exact (hall 30).2.1

/-- The all-zeros admissible random stream. -/
def g0 : RNG := ⟨fun _ => 0, 0⟩

/-- A one-virtual-node request. -/
def reqW : VirtualRequest := ⟨⟨[vA], []⟩, 0, 10⟩

theorem pso_population_indices_in_range_witness :
    StateOk ([[nodeD0]].map List.length) (psoStateN [[nodeD0]] reqW g0 1) ∧
    inRangeList ([[nodeD0]].map List.length) (MP_VNE.pso g0 [[nodeD0]] reqW).1 :=
  ⟨(pso_population_indices_in_range g0 [[nodeD0]] reqW
      (fun _ => ⟨le_refl 0, by norm_num [g0]⟩) (by decide)).1 1,
   (pso_population_indices_in_range g0 [[nodeD0]] reqW
      (fun _ => ⟨le_refl 0, by norm_num [g0]⟩) (by decide)).2⟩
